import Mathlib

/-!
# Verification of the coze generation core

A shallow embedding, in Lean 4, of the coze repository's generation
pipeline: the token sampler (`src/models.rs::sample_token`,
`src/generator.rs::top_k`), the weights downloader
(`src/models/cache.rs::download_from_repo`,
`src/generator/weights_cache.rs` and both `ProgressReader::update`
functions), the controller worker loop (`src/controller.rs::message_loop`),
the generation loop (`src/generator.rs::generator`,
`src/models.rs::TokensStream`), the byte-pair tokenizer
(`src/generator/arcade100k.rs`) and the streaming detokenizer
(`src/generator/token_output_stream.rs`).

Machine `f32` values are modelled as `Option ℚ` (`none` models NaN,
`some q` a finite numeric value, with exact rational arithmetic standing
in for rounding-free float arithmetic).  External collaborators (the
regex pre-tokenizer, the HTTP byte source, the neural forward pass, the
process random source) are parameters of the corresponding definitions.
-/

/-! ## Model of f32 values and of the HeapVal comparator

From `src/models.rs` lines 164-202 and `src/generator.rs` lines 363-379:

    #[derive(PartialEq, Debug)]
    struct HeapVal(f32);
    impl Eq for HeapVal {}
    impl PartialOrd for HeapVal {
        fn partial_cmp(&self, other: &Self) -> Option<Ordering> {
            Some(self.cmp(other))
        }
    }
    impl Ord for HeapVal {
        fn cmp(&self, other: &HeapVal) -> Ordering {
            other.0.partial_cmp(&self.0).unwrap_or(Ordering::Greater)
        }
    }
-/

/-- Model of an `f32` logit value: `none` is NaN, `some q` a numeric value. -/
abbrev FVal := Option ℚ

/-- Three-way comparison of rationals, the numeric case of `f32::partial_cmp`. -/
def cmpQ (a b : ℚ) : Ordering :=
  if a < b then .lt else if a = b then .eq else .gt

/-- Model of `f32::partial_cmp`: `None` whenever either side is NaN. -/
def fpcmp : FVal → FVal → Option Ordering
  | some a, some b => some (cmpQ a b)
  | _, _ => none

/-- Model of `<HeapVal as Ord>::cmp`:
`other.0.partial_cmp(&self.0).unwrap_or(Ordering::Greater)`. -/
def hvCmp (s o : FVal) : Ordering :=
  (fpcmp o s).getD .gt

/-- Model of the derived `PartialEq` on `HeapVal` (plain `f32` equality,
false whenever either side is NaN). -/
def feqv : FVal → FVal → Bool
  | some a, some b => a == b
  | _, _ => false

/-- Model of `<HeapVal as PartialOrd>::lt`, which the derived tuple
comparison uses: `partial_cmp == Some(Less)`, and `partial_cmp` here is
`Some(cmp)`. -/
def hvLt (a b : FVal) : Bool :=
  hvCmp a b == .lt

/-- The heap stores `(HeapVal, usize)` pairs: the logit and its token index. -/
abbrev HPair := FVal × ℕ

/-- Default pair used to totalise list indexing (indices are always in
range where it is used). -/
def hpDflt : HPair := (none, 0)

/-- Model of `<(HeapVal, usize) as PartialOrd>::le`, the comparison used by
`BinaryHeap::sift_up` and `sift_down_to_bottom` (std's lexical tuple
ordering): `if a.0 != b.0 { a.0 < b.0 } else { a.1 <= b.1 }`. -/
def tupLe (a b : HPair) : Bool :=
  if feqv a.1 b.1 then a.2 ≤ b.2 else hvLt a.1 b.1

/-! ## Model of `std::collections::BinaryHeap`

`push` appends and sifts up; `pop` removes the last element, swaps it into
the root and runs `sift_down_to_bottom` (move the hole to the bottom along
the larger-child path, then sift it up).  The comparisons are exactly the
`tupLe` calls of the std source.  Recursion is fuelled by the heap size,
which bounds both sift walks. -/

/-- The `sift_up` hole loop: `data` with a hole at `pos` whose element is
`elt`; while `pos > start` and not `elt <= data[parent]`, move the parent
into the hole.  Returns the data with the hole filled and the final
position. -/
def siftUpLoop : ℕ → List HPair → HPair → ℕ → ℕ → List HPair × ℕ
  | 0, data, elt, _, pos => (data.set pos elt, pos)
  | fuel + 1, data, elt, start, pos =>
    if start < pos then
      let parent := (pos - 1) / 2
      if tupLe elt (data.getD parent hpDflt) then (data.set pos elt, pos)
      else siftUpLoop fuel (data.set pos (data.getD parent hpDflt)) elt start parent
    else (data.set pos elt, pos)

/-- Model of `BinaryHeap::push`: append, then `sift_up(0, old_len)`. -/
def heapPush (data : List HPair) (x : HPair) : List HPair :=
  (siftUpLoop (data.length + 1) (data ++ [x]) x 0 data.length).1

/-- The descending walk of `sift_down_to_bottom`: while `child <=
end.saturating_sub(2)`, pick the larger child (`data[child] <=
data[child+1]` steps right) and move it into the hole.  Returns the data
and the hole position. -/
def siftDownLoop : ℕ → List HPair → ℕ → ℕ → List HPair × ℕ
  | 0, data, pos, _ => (data, pos)
  | fuel + 1, data, pos, e =>
    let child := 2 * pos + 1
    if child ≤ e - 2 then
      let child :=
        child + (if tupLe (data.getD child hpDflt) (data.getD (child + 1) hpDflt) then 1 else 0)
      siftDownLoop fuel (data.set pos (data.getD child hpDflt)) child e
    else (data, pos)

/-- Model of `BinaryHeap::sift_down_to_bottom(pos)`: walk the hole to the
bottom, take the final single-child step if any, then `sift_up` back. -/
def siftDownToBottom (data : List HPair) (pos : ℕ) : List HPair :=
  let e := data.length
  let elt := data.getD pos hpDflt
  let dp := siftDownLoop (e + 1) data pos e
  let dp2 :=
    if 2 * dp.2 + 1 = e - 1 then (dp.1.set dp.2 (dp.1.getD (e - 1) hpDflt), e - 1) else dp
  (siftUpLoop (e + 1) dp2.1 elt pos dp2.2).1

/-- Model of `BinaryHeap::pop`: remove the last element; if the heap is
still non-empty swap it with the root and `sift_down_to_bottom(0)`. -/
def heapPop (data : List HPair) : Option HPair × List HPair :=
  match data.getLast? with
  | none => (none, data)
  | some last =>
    let d := data.dropLast
    if d.isEmpty then (some last, d)
    else (some (d.getD 0 hpDflt), siftDownToBottom (d.set 0 last) 0)

/-- One iteration of the bounded-heap loop of `sample_token` / `top_k`:
`heap.push((HeapVal(v), idx)); if heap.len() > top_k { heap.pop(); }`. -/
def heapInsertK (k : ℕ) (data : List HPair) (x : HPair) : List HPair :=
  let d := heapPush data x
  if k < d.length then (heapPop d).2 else d

/-- The bounded heap after pushing every `(logit, index)` pair of the
logits vector, in order (`logits_v.iter().enumerate()`). -/
def topkHeap (k : ℕ) (logits : List FVal) : List HPair :=
  logits.enum.foldl (fun d iv => heapInsertK k d (iv.2, iv.1)) []

/-! ## Model of the softmax-and-draw tail of the sampler

From `src/models.rs` lines 204-225 and `src/generator.rs` lines 391-411.
The `f32::exp` primitive is a parameter `fexp` (applied only to numeric
values; NaN propagates), and the uniform draw of
`rand::distributions::WeightedIndex::sample` is a parameter `r`. -/

/-- `f32` subtraction on the model: NaN propagates. -/
def fsub : FVal → FVal → FVal
  | some a, some b => some (a - b)
  | _, _ => none

/-- `f32` addition on the model: NaN propagates. -/
def fadd : FVal → FVal → FVal
  | some a, some b => some (a + b)
  | _, _ => none

/-- `f32` division by the temperature: NaN propagates, and a division
producing a non-finite value (zero divisor) is modelled as non-numeric. -/
def fdivT : FVal → ℚ → FVal
  | some a, t => if t = 0 then none else some (a / t)
  | none, _ => none

/-- `f32::exp` on the model: `fexp` gives the numeric values, NaN
propagates. -/
def fexpF (fexp : ℚ → ℚ) : FVal → FVal
  | some a => some (fexp a)
  | none => none

/-- Model of `Iterator::max_by` with the comparator
`|(u, _), (v, _)| u.cmp(v)` (i.e. `hvCmp` on the logit components): fold
keeping the accumulator only when it compares strictly greater, so ties
prefer the later element.  `none` on an empty heap (`unwrap` panics). -/
def heapMaxBy (heap : List HPair) : Option HPair :=
  heap.foldl
    (fun acc x =>
      match acc with
      | none => some x
      | some a => some (if hvCmp a.1 x.1 == .gt then a else x))
    none

/-- Errors of the sampler tail: a panic (`unwrap` on an empty heap), or a
`rand::WeightedError` propagated by `?` from `WeightedIndex::new`. -/
inductive SErr where
  | panicked
  | noItem
  | invalidWeight
  | allWeightsZero
deriving DecidableEq

/-- Model of the `w >= zero` check of `WeightedIndex::new` (`false` for
NaN, which is how a NaN weight is rejected). -/
def wge0 : FVal → Bool
  | some a => decide (0 ≤ a)
  | none => false

/-- The accumulation loop of `WeightedIndex::new`: for each further
weight, reject negatives/NaN, push the running total, then add.  Returns
the cumulative-weights vector (all partial sums except the final total)
and the total. -/
def wIdxGo : List FVal → FVal → List FVal → Except SErr (List FVal × FVal)
  | [], total, cum =>
    if feqv total (some 0) then .error .allWeightsZero else .ok (cum, total)
  | w :: rest, total, cum =>
    if wge0 w then wIdxGo rest (fadd total w) (cum ++ [total])
    else .error .invalidWeight

/-- Model of `rand::distributions::WeightedIndex::new`. -/
def weightedIndexNew (ws : List FVal) : Except SErr (List FVal × FVal) :=
  match ws with
  | [] => .error .noItem
  | w0 :: rest => if wge0 w0 then wIdxGo rest w0 [] else .error .invalidWeight

/-- Model of `slice::partition_point`: the number of leading elements
satisfying the predicate. -/
def partitionPoint (p : FVal → Bool) (l : List FVal) : ℕ :=
  (l.takeWhile p).length

/-- Model of the `w <= &chosen_weight` comparison inside
`WeightedIndex::sample` (`false` for a NaN cumulative weight). -/
def wleR (w : FVal) (r : ℚ) : Bool :=
  match w with
  | some a => decide (a ≤ r)
  | none => false

/-- Model of the shared tail of `sample_token` (src/models.rs 196-225) and
`top_k` (src/generator.rs 381-411): bounded-heap top-k selection, `max_by`
over the retained logits, exponential weights, `WeightedIndex` draw.
`r` is the value drawn by the uniform sampler inside
`WeightedIndex::sample`. -/
def top_k_sample (fexp : ℚ → ℚ) (topk : ℕ) (temperature : ℚ) (logits : List FVal) (r : ℚ) :
    Except SErr ℕ :=
  let heap := topkHeap topk logits
  match heapMaxBy heap with
  | none => .error .panicked
  | some mx =>
    let maxLogit := mx.1
    let ws := heap.map fun p => fexpF fexp (fdivT (fsub p.1 maxLogit) temperature)
    let toks := heap.map Prod.snd
    match weightedIndexNew ws with
    | .error e => .error e
    | .ok ct => .ok (toks.getD (partitionPoint (fun w => wleR w r) ct.1) 0)

/-- Model of `candle_transformers::utils::apply_repeat_penalty`, the
external collaborator delegated to by `sample_token` and
`generate_token`; per the spec (§4.4, §9) and the candle source it
rescales each context token's logit, dividing non-negative scores by the
penalty and multiplying negative ones. -/
def apply_repeat_penalty (penalty : ℚ) (context : List ℕ) (logits : List FVal) : List FVal :=
  logits.enum.map fun iv =>
    if iv.1 ∈ context then
      iv.2.map fun a => if a < 0 then a * penalty else a / penalty
    else iv.2

/-- Model of `sample_token` (src/models.rs lines 164-225): apply the
repeat penalty to the trailing `repeat_last_n` window unless the penalty
is `1.0`, then run the top-k selection and weighted draw. -/
def sample_token (fexp : ℚ → ℚ) (topk : ℕ) (temperature penalty : ℚ) (repeatLastN : ℕ)
    (tokens : List ℕ) (logits : List FVal) (r : ℚ) : Except SErr ℕ :=
  let logits' :=
    if penalty = 1 then logits
    else apply_repeat_penalty penalty (tokens.drop (tokens.length - repeatLastN)) logits
  top_k_sample fexp topk temperature logits' r

/-! ## Sampler lemmas: the bounded heap at `top_k = 1` -/

/-- The `(logit, index)` pairs pushed onto the heap, in push order. -/
def pairsOf (logits : List FVal) : List HPair :=
  logits.enum.map fun iv => (iv.2, iv.1)

theorem topkHeap_eq_pairs_fold (k : ℕ) (logits : List FVal) :
    topkHeap k logits = (pairsOf logits).foldl (heapInsertK k) [] := by
  simp [topkHeap, pairsOf, List.foldl_map]

theorem heapPush_nil (x : HPair) : heapPush [] x = [x] := rfl

theorem heapInsertK_one (h x : HPair) :
    heapInsertK 1 [h] x = [if tupLe x h then x else h] := by
  cases hc : tupLe x h <;>
    simp [heapInsertK, heapPush, siftUpLoop, hc, heapPop, siftDownToBottom, siftDownLoop,
      List.getLast?, List.set]

/-- The single retained element of a capacity-1 bounded heap is computed by
the fold `if tupLe x m then x else m` over the pushed pairs. -/
def minStep (m x : HPair) : HPair :=
  if tupLe x m then x else m

theorem foldl_heapInsertK_one (ps : List HPair) (h : HPair) :
    ps.foldl (heapInsertK 1) [h] = [ps.foldl minStep h] := by
  induction ps generalizing h with
  | nil => rfl
  | cons x rest ih =>
    simp only [List.foldl_cons, heapInsertK_one, minStep]
    exact ih _

theorem tupLe_smaller_larger {b a : ℚ} (hba : b < a) (j i : ℕ) :
    tupLe (some b, j) (some a, i) = false := by
  have hne : (b == a) = false := by simp [hba.ne]
  simp [tupLe, feqv, hne, hvLt, hvCmp, fpcmp, cmpQ, hba.not_lt, hba.ne.symm]
  rfl

theorem tupLe_larger_smaller {b a : ℚ} (hba : b < a) (i j : ℕ) :
    tupLe (some a, i) (some b, j) = true := by
  have hne : (a == b) = false := by simp [hba.ne.symm]
  simp [tupLe, feqv, hne, hvLt, hvCmp, fpcmp, cmpQ, hba]
  rfl

theorem tupLe_refl_pair (a : ℚ) (i : ℕ) : tupLe (some a, i) (some a, i) = true := by
  simp [tupLe, feqv]

/-- Folding `minStep` over pairs that are all numeric and strictly below
`a` (except occurrences of `(some a, i)` itself), starting from a state
that already contains the maximum, keeps the maximum. -/
theorem foldl_minStep_keeps_max (a : ℚ) (i : ℕ) :
    ∀ ps : List HPair, (∀ p ∈ ps, p = (some a, i) ∨ ∃ b, p.1 = some b ∧ b < a) →
      ps.foldl minStep (some a, i) = (some a, i) := by
  intro ps
  induction ps with
  | nil => intro _; rfl
  | cons x rest ih =>
    intro hall
    have hx := hall x (List.mem_cons_self x rest)
    have hstep : minStep (some a, i) x = (some a, i) := by
      rcases hx with hx | ⟨b, hb1, hb2⟩
      · rw [hx]; simp [minStep, tupLe_refl_pair]
      · obtain ⟨v, j⟩ := x
        simp only at hb1
        subst hb1
        simp [minStep, tupLe_smaller_larger hb2]
    simp only [List.foldl_cons, hstep]
    exact ih fun p hp => hall p (List.mem_cons_of_mem x hp)

/-- Folding `minStep` over a pair list containing `(some a, i)`, all of
whose other elements are numeric and strictly below `a`, yields
`(some a, i)` — the running capacity-1 heap converges to the maximum. -/
theorem foldl_minStep_max (a : ℚ) (i : ℕ) :
    ∀ (ps : List HPair) (m : HPair),
      ((some a, i) ∈ m :: ps) →
      (∀ p ∈ m :: ps, p = (some a, i) ∨ ∃ b, p.1 = some b ∧ b < a) →
      ps.foldl minStep m = (some a, i) := by
  intro ps
  induction ps with
  | nil =>
    intro m hmem hall
    simp only [List.mem_cons, List.not_mem_nil, or_false] at hmem
    simp [hmem.symm]
  | cons x rest ih =>
    intro m hmem hall
    by_cases hm : m = (some a, i)
    · subst hm
      have : minStep (some a, i) x = (some a, i) := by
        rcases hall x (by simp) with hx | ⟨b, hb1, hb2⟩
        · rw [hx]; simp [minStep, tupLe_refl_pair]
        · obtain ⟨v, j⟩ := x
          simp only at hb1
          subst hb1
          simp [minStep, tupLe_smaller_larger hb2]
      simp only [List.foldl_cons, this]
      exact foldl_minStep_keeps_max a i rest
        (fun p hp => hall p (by simp [List.mem_cons_of_mem, hp]))
    · have hmmem : (some a, i) ∈ x :: rest := by
        rcases List.mem_cons.mp hmem with h | h
        · exact absurd h.symm hm
        · exact h
      obtain ⟨bm, hbm1, hbm2⟩ := (hall m (by simp)).resolve_left hm
      by_cases hx : x = (some a, i)
      · subst hx
        have : minStep m (some a, i) = (some a, i) := by
          obtain ⟨v, j⟩ := m
          simp only at hbm1
          subst hbm1
          simp [minStep, tupLe_larger_smaller hbm2]
        simp only [List.foldl_cons, this]
        exact foldl_minStep_keeps_max a i rest
          (fun p hp => hall p (by simp [List.mem_cons_of_mem, hp]))
      · have hmem' : (some a, i) ∈ minStep m x :: rest := by
          have : (some a, i) ∈ rest := by
            rcases List.mem_cons.mp hmmem with h | h
            · exact absurd h.symm hx
            · exact h
          exact List.mem_cons_of_mem _ this
        have hall' : ∀ p ∈ minStep m x :: rest, p = (some a, i) ∨ ∃ b, p.1 = some b ∧ b < a := by
          intro p hp
          rcases List.mem_cons.mp hp with h | h
          · subst h
            by_cases hc : tupLe x m = true
            · simp only [minStep, hc, if_true]
              exact hall x (by simp)
            · simp only [minStep, hc, if_false]
              exact hall m (by simp)
          · exact hall p (by simp [List.mem_cons_of_mem, h])
        simpa using ih (minStep m x) hmem' hall'

theorem pairsOf_mem {ls : List FVal} {p : HPair} (hp : p ∈ pairsOf ls) :
    p.2 < ls.length ∧ ls.getD p.2 none = p.1 := by
  simp only [pairsOf, List.mem_map] at hp
  obtain ⟨iv, hiv, hep⟩ := hp
  rw [List.mem_enum_iff_getElem?] at hiv
  have hlt : iv.1 < ls.length := by
    by_contra hge
    rw [List.getElem?_eq_none (le_of_not_lt hge)] at hiv
    exact Option.noConfusion hiv
  constructor
  · rw [← hep]; exact hlt
  · rw [← hep]
    simp [List.getD_eq_getElem?_getD, hiv]

theorem pairsOf_mem_of {ls : List FVal} {i : ℕ} (h : i < ls.length) :
    (ls.getD i none, i) ∈ pairsOf ls := by
  simp only [pairsOf, List.mem_map]
  refine ⟨(i, ls.getD i none), ?_, rfl⟩
  rw [List.mem_enum_iff_getElem?]
  simp [List.getD_eq_getElem?_getD, List.getElem?_eq_getElem h]

/-- At `top_k = 1` the bounded heap retains exactly the unique maximal
(post-penalty) logit together with its index. -/
theorem topkHeap_one_eq (ls : List FVal) (a : ℚ) (i : ℕ)
    (hi : ls.getD i none = some a) (hlen : i < ls.length)
    (hmax : ∀ j < ls.length, j ≠ i → ∃ b, ls.getD j none = some b ∧ b < a) :
    topkHeap 1 ls = [(some a, i)] := by
  rw [topkHeap_eq_pairs_fold]
  have hall : ∀ p ∈ pairsOf ls, p = (some a, i) ∨ ∃ b, p.1 = some b ∧ b < a := by
    intro p hp
    obtain ⟨hp1, hp2⟩ := pairsOf_mem hp
    by_cases hpi : p.2 = i
    · left
      obtain ⟨v, j⟩ := p
      simp only at hpi hp2
      subst hpi
      rw [hi] at hp2
      rw [← hp2]
    · right
      obtain ⟨b, hb1, hb2⟩ := hmax p.2 hp1 hpi
      exact ⟨b, by rw [← hp2, hb1], hb2⟩
  have hmem : (some a, i) ∈ pairsOf ls := by
    have := @pairsOf_mem_of ls i hlen
    rwa [hi] at this
  cases hps : pairsOf ls with
  | nil => rw [hps] at hmem; exact absurd hmem (List.not_mem_nil _)
  | cons p ps =>
    rw [hps] at hmem hall
    have h1 : heapInsertK 1 [] p = [p] := by
      simp [heapInsertK, heapPush_nil]
    simp only [List.foldl_cons, h1, foldl_heapInsertK_one]
    rw [foldl_minStep_max a i ps p hmem hall]

/-- Evaluation of the sampler tail over a single retained candidate: the
draw is forced to that candidate's index, whatever the random value. -/
theorem top_k_sample_of_heap_singleton (fexp : ℚ → ℚ) (temperature : ℚ) (logits : List FVal)
    (r : ℚ) (a : ℚ) (i : ℕ) (hexp : 0 < fexp 0) (htemp : temperature ≠ 0)
    (hheap : topkHeap 1 logits = [(some a, i)]) :
    top_k_sample fexp 1 temperature logits r = .ok i := by
  have hge : wge0 (some (fexp 0)) = true := by simp [wge0, le_of_lt hexp]
  have hne : feqv (some (fexp 0)) (some 0) = false := by
    simp [feqv, hexp.ne.symm]
  simp [top_k_sample, hheap, heapMaxBy, fsub, fdivT, htemp, fexpF, weightedIndexNew, hge,
    wIdxGo, hne, partitionPoint]

/-- C4: for every logits vector with a unique maximum after repeat-penalty
rescaling and parameters with `top_k = 1`, the sampler (`sample_token` in
src/models.rs, whose top-k/softmax/draw tail `top_k_sample` is the same
code as `top_k` in src/generator.rs) returns the id of the single
highest-logit entry, for every (nonzero, per the data model a positive
float) temperature and every state of the random source `r`.  `fexp`
models `f32::exp`, constrained only at the one point where it is
evaluated. -/
theorem sample_topk1_returns_unique_max (fexp : ℚ → ℚ) (temperature penalty : ℚ)
    (repeatLastN : ℕ) (tokens : List ℕ) (logits plogits : List FVal) (r : ℚ) (a : ℚ) (i : ℕ)
    (hexp : 0 < fexp 0) (htemp : temperature ≠ 0)
    (hpl : plogits = if penalty = 1 then logits
      else apply_repeat_penalty penalty (tokens.drop (tokens.length - repeatLastN)) logits)
    (hi : plogits.getD i none = some a) (hlen : i < plogits.length)
    (hmax : ∀ j < plogits.length, j ≠ i → ∃ b, plogits.getD j none = some b ∧ b < a) :
    sample_token fexp 1 temperature penalty repeatLastN tokens logits r = .ok i ∧
      top_k_sample fexp 1 temperature plogits r = .ok i := by
  have hheap : topkHeap 1 plogits = [(some a, i)] := topkHeap_one_eq plogits a i hi hlen hmax
  have htail : top_k_sample fexp 1 temperature plogits r = .ok i :=
    top_k_sample_of_heap_singleton fexp temperature plogits r a i hexp htemp hheap
  refine ⟨?_, htail⟩
  rw [sample_token, ← hpl]
  exact htail

/-- Witness for C4: logits `[0.1, 5, 3]` (the spec §8 sampler scenario),
`top_k = 1`, an arbitrary exp model, temperature 1, penalty 1, random
draw 7/3: the sampler returns index 1. -/
theorem sample_topk1_returns_unique_max_witness :
    sample_token (fun _ => 1) 1 1 1 64 [] [some (1/10), some 5, some 3] (7/3) = .ok 1 ∧
      top_k_sample (fun _ => 1) 1 1 [some (1/10), some 5, some 3] (7/3) = .ok 1 :=
  sample_topk1_returns_unique_max (fun _ => 1) 1 1 64 [] [some (1/10), some 5, some 3]
    [some (1/10), some 5, some 3] (7/3) 5 1 (by norm_num) (by norm_num) (by norm_num)
    (by decide) (by decide)
    (by
      intro j hj hne
      simp only [List.length_cons, List.length_nil] at hj
      rcases j with _ | _ | _ | j
      · exact ⟨1/10, by norm_num, by norm_num⟩
      · exact absurd rfl hne
      · exact ⟨3, by norm_num, by norm_num⟩
      · omega)

/-- C9 counterexample: the logits vector `[NaN, 5, 3]` contains
`top_k = 2` non-NaN entries, yet the bounded heap retains the NaN entry
(index 0) among the top-2 candidates while evicting the numeric entry 3;
moreover `HeapVal::cmp` compares a numeric value against NaN as `Greater`
(heap-greater, i.e. as the *smaller* logit), where an ordering treating
NaN as the smallest value would have to return `Less`.  This refutes both
halves of the claim. -/
theorem heap_nan_retained_counterexample :
    topkHeap 2 [none, some 5, some 3] = [(some 5, 1), (none, 0)] ∧
      (none, 0) ∈ topkHeap 2 [none, some 5, some 3] ∧
      hvCmp (some 0) none = .gt := by
  decide

/-- C9 amended: in `HeapVal::cmp`, every comparison involving a NaN
returns `Greater` regardless of which side the NaN is on
(`unwrap_or(Ordering::Greater)`), so a NaN is treated as the smallest
logit only when it is the left operand; the ordering is asymmetric rather
than "NaN is smallest", and NaN entries already inside the heap can sink
below numeric candidates and survive among the retained top-k (see the
counterexample). -/
theorem hvCmp_nan_always_greater (v : FVal) :
    hvCmp none v = .gt ∧ hvCmp v none = .gt := by
  cases v <;> simp [hvCmp, fpcmp]

/-! ## Model of the weights downloader

From `src/models/cache.rs` (`download_from_repo`, `ProgressReader`) and
`src/generator/weights_cache.rs` (`download_weights`, `ProgressReader`).
Paths are modelled structurally (directory, stem, extension), so
`Path::with_extension("tmp")` is an extension replacement and the temp
file is a sibling of the destination.  The filesystem is a map from paths
to file contents; the HTTP collaborator is a connection result carrying
the `content-length` header value (`0` when absent or unparsable,
matching `unwrap_or(0)`) and the sequence of reads it will serve, where
`none` models a mid-stream read error.  The progress callback `cb` gets
the index of the call and the reported value, and returning `false`
aborts the transfer (the `BrokenPipe` "User interrupt" error). -/

/-- A filesystem path: directory, file stem, extension (abstract ids). -/
structure FPath where
  dir : ℕ
  stem : ℕ
  ext : ℕ
deriving DecidableEq

/-- Model of `Path::with_extension`: replace the extension, keeping
directory and stem — the result is a sibling file. -/
def FPath.withExtension (p : FPath) (e : ℕ) : FPath :=
  { p with ext := e }

/-- The extension id standing for `"tmp"`. -/
def tmpExt : ℕ := 1000

/-- The filesystem: contents (byte lists) per path. -/
abbrev FS := FPath → Option (List ℕ)

/-- Create/truncate-and-write a file. -/
def fsSet (fs : FS) (p : FPath) (v : List ℕ) : FS :=
  fun q => if q = p then some v else fs q

/-- Model of `fs::remove_file`. -/
def fsRemove (fs : FS) (p : FPath) : FS :=
  fun q => if q = p then none else fs q

/-- State of a `ProgressReader`: the content length told by the server,
total bytes accumulated, and bytes accumulated since the last
notification. -/
structure PRState where
  length : ℕ
  bytesRead : ℕ
  batchRead : ℕ
deriving DecidableEq

/-- Model of `ProgressReader::update` in `src/models/cache.rs` lines
182-205: accumulate the batch, compute the value to report (a cycling
fraction `(bytes_read % 100)/100` when the length is unknown, else
`bytes_read / length`), and report it when more than `length / 200`
(≈0.5%) has accumulated since the last notification.  Returns the new
state and the reported value, if any. -/
def cacheProgressUpdate (st : PRState) (n : ℕ) : PRState × Option ℚ :=
  let batch := st.batchRead + n
  let brPct : ℕ × ℚ :=
    if st.length = 0 then
      (st.bytesRead + 1, (((st.bytesRead + 1) % 100 : ℕ) : ℚ) / 100)
    else
      (st.bytesRead + n, ((st.bytesRead + n : ℕ) : ℚ) / (st.length : ℚ))
  if st.length / 200 < batch then
    ({ st with bytesRead := brPct.1, batchRead := 0 }, some brPct.2)
  else
    ({ st with bytesRead := brPct.1, batchRead := batch }, none)

/-- Model of `ProgressReader::update` in `src/generator/weights_cache.rs`
lines 97-121: same cycling value when the length is unknown, but
`bytes_read / length * 100` (a percentage) when it is known, reported
every 1 MiB (`batch_read > 1_048_576`). -/
def weightsProgressUpdate (st : PRState) (n : ℕ) : PRState × Option ℚ :=
  let batch := st.batchRead + n
  let brPct : ℕ × ℚ :=
    if st.length = 0 then
      (st.bytesRead + 1, (((st.bytesRead + 1) % 100 : ℕ) : ℚ) / 100)
    else
      (st.bytesRead + n, ((st.bytesRead + n : ℕ) : ℚ) / (st.length : ℚ) * 100)
  if 1048576 < batch then
    ({ st with bytesRead := brPct.1, batchRead := 0 }, some brPct.2)
  else
    ({ st with bytesRead := brPct.1, batchRead := batch }, none)

/-- Download errors: connection failure of `agent.get(..).call()`, a
mid-stream read error, or the distinguished "User interrupt" raised when
the progress callback returns `false`. -/
inductive DlErr where
  | connect (e : ℕ)
  | readErr (e : ℕ)
  | cancelled
deriving DecidableEq

/-- The `io::copy` loop of `download_from_repo`, reading through the
`ProgressReader` (src/models/cache.rs lines 146-149, 208-214): each read
yields a chunk, `update` runs on its length and may invoke the callback
(`false` aborting with the user-interrupt error), and only then is the
chunk appended to the temp file; a read error aborts; the final
end-of-stream read of length 0 also runs `update` (and may fire the
callback) before the copy returns.  Returns the accumulated temp-file
contents, or the error. -/
def copyLoop (cb : ℕ → ℚ → Bool) :
    List (Option (List ℕ)) → PRState → ℕ → List ℕ → Except DlErr (List ℕ)
  | [], st, ci, acc =>
    match (cacheProgressUpdate st 0).2 with
    | some pct => if cb ci pct then .ok acc else .error .cancelled
    | none => .ok acc
  | none :: _, _, _, _ => .error (.readErr 0)
  | some c :: rest, st, ci, acc =>
    let up := cacheProgressUpdate st c.length
    match up.2 with
    | some pct =>
      if cb ci pct then
        if c.isEmpty then .ok acc else copyLoop cb rest up.1 (ci + 1) (acc ++ c)
      else .error .cancelled
    | none =>
      if c.isEmpty then .ok acc else copyLoop cb rest up.1 ci (acc ++ c)

/-- Model of `download_from_repo` (src/models/cache.rs lines 127-157):
on connection failure the error propagates untouched; otherwise create
the `.tmp` sibling, stream all bytes into it, delete it on any copy
error, and on success sync and atomically rename it onto the
destination. -/
def download_from_repo (resp : Except ℕ (ℕ × List (Option (List ℕ)))) (cb : ℕ → ℚ → Bool)
    (dest : FPath) (fs : FS) : FS × Except DlErr Unit :=
  match resp with
  | .error e => (fs, .error (.connect e))
  | .ok cl =>
    let temp := dest.withExtension tmpExt
    let fs1 := fsSet fs temp []
    match copyLoop cb cl.2 ⟨cl.1, 0, 0⟩ 0 [] with
    | .error e => (fsRemove fs1 temp, .error e)
    | .ok content => (fsSet (fsRemove (fsSet fs1 temp content) temp) dest content, .ok ())

/-- The temp-file contents over the course of the copy loop: the value
after each chunk write. -/
def copyContents (cb : ℕ → ℚ → Bool) :
    List (Option (List ℕ)) → PRState → ℕ → List ℕ → List (List ℕ)
  | [], _, _, _ => []
  | none :: _, _, _, _ => []
  | some c :: rest, st, ci, acc =>
    let up := cacheProgressUpdate st c.length
    match up.2 with
    | some pct =>
      if cb ci pct then
        if c.isEmpty then [] else (acc ++ c) :: copyContents cb rest up.1 (ci + 1) (acc ++ c)
      else []
    | none =>
      if c.isEmpty then [] else (acc ++ c) :: copyContents cb rest up.1 ci (acc ++ c)

/-- Every filesystem state observable while `download_from_repo` runs:
the initial state, the state after the temp file is created, the state
after each chunk write, and the final state. -/
def downloadTrace (resp : Except ℕ (ℕ × List (Option (List ℕ)))) (cb : ℕ → ℚ → Bool)
    (dest : FPath) (fs : FS) : List FS :=
  match resp with
  | .error _ => [fs]
  | .ok cl =>
    let temp := dest.withExtension tmpExt
    let fs1 := fsSet fs temp []
    fs :: fs1 ::
      (copyContents cb cl.2 ⟨cl.1, 0, 0⟩ 0 []).map (fun c => fsSet fs1 temp c) ++
      [(download_from_repo resp cb dest fs).1]

theorem fsSet_same (fs : FS) (p : FPath) (v : List ℕ) : fsSet fs p v p = some v := by
  simp [fsSet]

theorem fsSet_other (fs : FS) (p : FPath) (v : List ℕ) (q : FPath) (h : q ≠ p) :
    fsSet fs p v q = fs q := by
  simp [fsSet, h]

theorem fsRemove_same (fs : FS) (p : FPath) : fsRemove fs p p = none := by
  simp [fsRemove]

theorem fsRemove_other (fs : FS) (p q : FPath) (h : q ≠ p) : fsRemove fs p q = fs q := by
  simp [fsRemove, h]

/-- The copy loop never produces a connection error: its failures are the
mid-stream read error and the user interrupt. -/
theorem copyLoop_ne_connect (cb : ℕ → ℚ → Bool) :
    ∀ (chunks : List (Option (List ℕ))) (st : PRState) (ci : ℕ) (acc : List ℕ) (e : DlErr),
      copyLoop cb chunks st ci acc = .error e → ∀ x, e ≠ .connect x := by
  intro chunks
  induction chunks with
  | nil =>
    intro st ci acc e he x
    simp only [copyLoop] at he
    split at he
    · split at he
      · exact Except.noConfusion he
      · obtain rfl : DlErr.cancelled = e := by injection he
        simp
    · exact Except.noConfusion he
  | cons c rest ih =>
    intro st ci acc e he x
    cases c with
    | none =>
      simp only [copyLoop] at he
      obtain rfl : DlErr.readErr 0 = e := by injection he
      simp
    | some bytes =>
      simp only [copyLoop] at he
      split at he
      · split at he
        · split at he
          · exact Except.noConfusion he
          · exact ih _ _ _ e he x
        · obtain rfl : DlErr.cancelled = e := by injection he
          simp
      · split at he
        · exact Except.noConfusion he
        · exact ih _ _ _ e he x

/-- C1: all bytes are written to the `.tmp` sibling of the destination
(no other path is ever touched, and the destination is untouched in every
observable intermediate state); the destination is only ever written by
the final rename of the fully transferred contents after a successful
copy; and on any error during the transfer — a read error or the
callback returning `false` (cancellation) — the temp file is deleted and
the destination is left exactly as it was (absent, or a previously
complete file).  A connection failure happens before the temp file is
created and leaves the whole filesystem untouched.  The hypothesis rules
out a destination that itself carries the `tmp` extension, in which case
`with_extension` would not produce a distinct sibling (the cached weight
and tokenizer files never do).  This covers `download_from_repo`
(src/models/cache.rs) and the structurally identical
`WeightsCache::download_weights` (src/generator/weights_cache.rs). -/
theorem download_from_repo_atomic (resp : Except ℕ (ℕ × List (Option (List ℕ))))
    (cb : ℕ → ℚ → Bool) (dest : FPath) (fs : FS) (hne : dest.ext ≠ tmpExt) :
    (∀ s ∈ (downloadTrace resp cb dest fs).dropLast, s dest = fs dest) ∧
    (∀ s ∈ downloadTrace resp cb dest fs, ∀ p : FPath,
      p ≠ dest.withExtension tmpExt → p ≠ dest → s p = fs p) ∧
    (downloadTrace resp cb dest fs).getLast? = some (download_from_repo resp cb dest fs).1 ∧
    ((download_from_repo resp cb dest fs).2 = .ok () →
      ∃ cl content, resp = .ok cl ∧ copyLoop cb cl.2 ⟨cl.1, 0, 0⟩ 0 [] = .ok content ∧
        (download_from_repo resp cb dest fs).1 dest = some content ∧
        (download_from_repo resp cb dest fs).1 (dest.withExtension tmpExt) = none) ∧
    (∀ e, (download_from_repo resp cb dest fs).2 = .error e →
      (download_from_repo resp cb dest fs).1 dest = fs dest ∧
      ((∀ x, e ≠ .connect x) →
        (download_from_repo resp cb dest fs).1 (dest.withExtension tmpExt) = none) ∧
      (∀ x, e = .connect x → (download_from_repo resp cb dest fs).1 = fs)) := by
  have hdt : dest ≠ dest.withExtension tmpExt := by
    intro h
    exact hne (congrArg FPath.ext h)
  cases resp with
  | error ce =>
    refine ⟨?_, ?_, ?_, ?_, ?_⟩
    · intro s hs
      simp [downloadTrace] at hs
    · intro s hs p _ _
      simp only [downloadTrace, List.mem_singleton] at hs
      rw [hs]
    · simp [downloadTrace, download_from_repo]
    · intro hok
      exact Except.noConfusion hok
    · intro e he
      have he2 : Except.error (DlErr.connect ce) = Except.error e := he
      obtain rfl : DlErr.connect ce = e := by injection he2
      exact ⟨rfl, fun h => absurd rfl (h ce), fun _ _ => rfl⟩
  | ok cl =>
    cases hcp : copyLoop cb cl.2 ⟨cl.1, 0, 0⟩ 0 [] with
    | error er =>
      have h1 : (download_from_repo (.ok cl) cb dest fs).1 =
          fsRemove (fsSet fs (dest.withExtension tmpExt) []) (dest.withExtension tmpExt) := by
        simp [download_from_repo, hcp]
      have h2 : (download_from_repo (.ok cl) cb dest fs).2 = .error er := by
        simp [download_from_repo, hcp]
      refine ⟨?_, ?_, ?_, ?_, ?_⟩
      · intro s hs
        simp only [downloadTrace, List.dropLast_concat] at hs
        rcases List.mem_cons.mp hs with rfl | hs
        · rfl
        rcases List.mem_cons.mp hs with rfl | hs
        · exact fsSet_other _ _ _ _ hdt
        obtain ⟨c, _, rfl⟩ := List.mem_map.mp hs
        rw [fsSet_other _ _ _ _ hdt]
        exact fsSet_other _ _ _ _ hdt
      · intro s hs p hpt hpd
        simp only [downloadTrace] at hs
        rcases List.mem_cons.mp hs with rfl | hs
        · rfl
        rcases List.mem_cons.mp hs with rfl | hs
        · exact fsSet_other _ _ _ _ hpt
        rcases List.mem_append.mp hs with hs | hs
        · obtain ⟨c, _, rfl⟩ := List.mem_map.mp hs
          rw [fsSet_other _ _ _ _ hpt]
          exact fsSet_other _ _ _ _ hpt
        · rw [List.mem_singleton] at hs
          subst hs
          rw [h1]
          rw [fsRemove_other _ _ _ hpt]
          exact fsSet_other _ _ _ _ hpt
      · simp only [downloadTrace]
        rw [List.getLast?_concat]
      · intro hok
        rw [h2] at hok
        exact Except.noConfusion hok
      · intro e he
        rw [h2] at he
        obtain rfl : er = e := by injection he
        refine ⟨?_, ?_, ?_⟩
        · rw [h1]
          rw [fsRemove_other _ _ _ hdt]
          exact fsSet_other _ _ _ _ hdt
        · intro _
          rw [h1]
          exact fsRemove_same _ _
        · intro x hx
          exact absurd hx (copyLoop_ne_connect cb cl.2 ⟨cl.1, 0, 0⟩ 0 [] er hcp x)
    | ok content =>
      have h1 : (download_from_repo (.ok cl) cb dest fs).1 =
          fsSet (fsRemove (fsSet (fsSet fs (dest.withExtension tmpExt) [])
            (dest.withExtension tmpExt) content) (dest.withExtension tmpExt)) dest content := by
        simp [download_from_repo, hcp]
      have h2 : (download_from_repo (.ok cl) cb dest fs).2 = .ok () := by
        simp [download_from_repo, hcp]
      refine ⟨?_, ?_, ?_, ?_, ?_⟩
      · intro s hs
        simp only [downloadTrace, List.dropLast_concat] at hs
        rcases List.mem_cons.mp hs with rfl | hs
        · rfl
        rcases List.mem_cons.mp hs with rfl | hs
        · exact fsSet_other _ _ _ _ hdt
        obtain ⟨c, _, rfl⟩ := List.mem_map.mp hs
        rw [fsSet_other _ _ _ _ hdt]
        exact fsSet_other _ _ _ _ hdt
      · intro s hs p hpt hpd
        simp only [downloadTrace] at hs
        rcases List.mem_cons.mp hs with rfl | hs
        · rfl
        rcases List.mem_cons.mp hs with rfl | hs
        · exact fsSet_other _ _ _ _ hpt
        rcases List.mem_append.mp hs with hs | hs
        · obtain ⟨c, _, rfl⟩ := List.mem_map.mp hs
          rw [fsSet_other _ _ _ _ hpt]
          exact fsSet_other _ _ _ _ hpt
        · rw [List.mem_singleton] at hs
          subst hs
          rw [h1]
          rw [fsSet_other _ _ _ _ hpd, fsRemove_other _ _ _ hpt, fsSet_other _ _ _ _ hpt]
          exact fsSet_other _ _ _ _ hpt
      · simp only [downloadTrace]
        rw [List.getLast?_concat]
      · intro _
        refine ⟨cl, content, rfl, hcp, ?_, ?_⟩
        · rw [h1]
          exact fsSet_same _ _ _
        · rw [h1]
          rw [fsSet_other _ _ _ _ (Ne.symm hdt)]
          exact fsRemove_same _ _
      · intro e he
        rw [h2] at he
        exact Except.noConfusion he

/-- Witness for C1: a download of two chunks over a connection reporting
length 10, cancelled at the first progress callback, leaves the (empty)
filesystem without the destination file and without the temp file. -/
theorem download_from_repo_atomic_witness :
    (⟨0, 0, 0⟩ : FPath).ext ≠ tmpExt ∧
      ((download_from_repo (.ok (10, [some [1, 2], some [3]])) (fun _ _ => false)
          ⟨0, 0, 0⟩ (fun _ => none)).2 = .error .cancelled →
        (download_from_repo (.ok (10, [some [1, 2], some [3]])) (fun _ _ => false)
            ⟨0, 0, 0⟩ (fun _ => none)).1 ⟨0, 0, 0⟩ = (fun _ => none : FS) ⟨0, 0, 0⟩ ∧
          ((∀ x, DlErr.cancelled ≠ .connect x) →
            (download_from_repo (.ok (10, [some [1, 2], some [3]])) (fun _ _ => false)
                ⟨0, 0, 0⟩ (fun _ => none)).1
              ((⟨0, 0, 0⟩ : FPath).withExtension tmpExt) = none) ∧
          (∀ x, DlErr.cancelled = .connect x →
            (download_from_repo (.ok (10, [some [1, 2], some [3]])) (fun _ _ => false)
                ⟨0, 0, 0⟩ (fun _ => none)).1 = (fun _ => none : FS))) :=
  ⟨by decide,
    (download_from_repo_atomic (.ok (10, [some [1, 2], some [3]])) (fun _ _ => false)
        ⟨0, 0, 0⟩ (fun _ => none) (by decide)).2.2.2.2 .cancelled⟩

/-- C8 counterexample: the `ProgressReader::update` of
`src/generator/weights_cache.rs` invoked with 5 MB accumulated out of a
known 10 MB content length passes `50.0` — a percentage, not a fraction
in `[0,1]` — to the progress callback (and hence into the download
progress message payload). -/
theorem weights_progress_percent_counterexample :
    (weightsProgressUpdate ⟨10000000, 0, 0⟩ 5000000).2 = some 50 ∧ ¬ (50 : ℚ) ≤ 1 := by
  constructor
  · norm_num [weightsProgressUpdate]
  · norm_num

/-- C8 amended: assuming the byte source never delivers more than the
announced content length (the HTTP collaborator caps the body at
`content-length`), every value passed to the progress callback lies in
`[0,1]` for the reader of src/models/cache.rs — in both the known-length
branch (`bytes_read / length`) and the unknown-length cycling branch
(`(bytes_read % 100)/100`) — while the reader of
src/generator/weights_cache.rs passes `bytes_read / length * 100`, a
percentage in `[0,100]`, in its known-length branch (its cycling branch
still lies in `[0,1]`). -/
theorem progress_update_bounds (st : PRState) (n : ℕ)
    (hb : st.length ≠ 0 → st.bytesRead + n ≤ st.length) :
    (∀ pct, (cacheProgressUpdate st n).2 = some pct → 0 ≤ pct ∧ pct ≤ 1) ∧
    (∀ pct, (weightsProgressUpdate st n).2 = some pct → 0 ≤ pct ∧ pct ≤ 100) := by
  have hcyc : (0 : ℚ) ≤ (((st.bytesRead + 1) % 100 : ℕ) : ℚ) / 100 ∧
      (((st.bytesRead + 1) % 100 : ℕ) : ℚ) / 100 ≤ 1 := by
    constructor
    · positivity
    · rw [div_le_one (by norm_num)]
      have : (st.bytesRead + 1) % 100 < 100 := Nat.mod_lt _ (by norm_num)
      exact_mod_cast le_of_lt this
  by_cases hl : st.length = 0
  · constructor
    · intro pct hpct
      simp only [cacheProgressUpdate, hl, if_pos rfl, if_true] at hpct
      split at hpct
      · obtain rfl : (((st.bytesRead + 1) % 100 : ℕ) : ℚ) / 100 = pct := by injection hpct
        exact hcyc
      · exact Option.noConfusion hpct
    · intro pct hpct
      simp only [weightsProgressUpdate, hl, if_pos rfl, if_true] at hpct
      split at hpct
      · obtain rfl : (((st.bytesRead + 1) % 100 : ℕ) : ℚ) / 100 = pct := by injection hpct
        exact ⟨hcyc.1, le_trans hcyc.2 (by norm_num)⟩
      · exact Option.noConfusion hpct
  · have hlen : (0 : ℚ) < (st.length : ℚ) := by
      exact_mod_cast Nat.pos_of_ne_zero hl
    have hfr : (0 : ℚ) ≤ ((st.bytesRead + n : ℕ) : ℚ) / (st.length : ℚ) ∧
        ((st.bytesRead + n : ℕ) : ℚ) / (st.length : ℚ) ≤ 1 := by
      constructor
      · positivity
      · rw [div_le_one hlen]
        exact_mod_cast hb hl
    constructor
    · intro pct hpct
      simp only [cacheProgressUpdate, hl, if_neg hl, if_false] at hpct
      split at hpct
      · obtain rfl : ((st.bytesRead + n : ℕ) : ℚ) / (st.length : ℚ) = pct := by injection hpct
        exact hfr
      · exact Option.noConfusion hpct
    · intro pct hpct
      simp only [weightsProgressUpdate, hl, if_neg hl, if_false] at hpct
      split at hpct
      · obtain rfl : ((st.bytesRead + n : ℕ) : ℚ) / (st.length : ℚ) * 100 = pct := by
          injection hpct
        constructor
        · positivity
        · calc ((st.bytesRead + n : ℕ) : ℚ) / (st.length : ℚ) * 100
              ≤ 1 * 100 := by
                exact mul_le_mul_of_nonneg_right hfr.2 (by norm_num)
            _ = 100 := by norm_num
      · exact Option.noConfusion hpct

/-- Witness for the amended C8: a reader with content length 200 that has
accumulated 10 bytes. -/
theorem progress_update_bounds_witness :
    (∀ pct, (cacheProgressUpdate ⟨200, 0, 0⟩ 10).2 = some pct → 0 ≤ pct ∧ pct ≤ 1) ∧
      (∀ pct, (weightsProgressUpdate ⟨200, 0, 0⟩ 10).2 = some pct → 0 ≤ pct ∧ pct ≤ 100) :=
  progress_update_bounds ⟨200, 0, 0⟩ 10 (by intro _; norm_num)

/-! ## Model of the controller worker loop

From `src/controller.rs` (`message_loop`, lines 138-210).  Commands are
the queue contents given up front (`recv` pops the head; the
`command_rx.is_empty()` cancellation check inside the prompt loop
observes the remaining list).  The model/load behaviour is an oracle
environment: `loadResult` gives, per load attempt, the download messages
emitted by `load_model` and its result (a model representation, or an
error), and `promptScript` gives, per `(model, prompt, params)`, the
result of `model.prompt` and the successive outcomes of
`token_stream.next`.  Prompt texts, token fragments, error strings,
parameter profiles and model representations are abstract ids. -/

/-- Model of `Command` (src/controller.rs lines 23-36). -/
inductive CCmd where
  | loadModel (mid : ℕ)
  | prompt (pid : ℕ) (text : ℕ)
  | config (cfg : ℕ)
  | reloadWeights (mid : ℕ)
  | stop
  | shutdown
deriving DecidableEq

/-- Model of `Message` (src/controller.rs lines 39-52); the four download
message kinds are collapsed into `download` payloads, which the claims
never inspect. -/
inductive CMsg where
  | token (pid : ℕ) (frag : ℕ)
  | error (e : ℕ)
  | download (d : ℕ)
deriving DecidableEq

/-- One outcome of `token_stream.next`: a decoded fragment
(`Ok(Some(_))`), natural completion (`Ok(None)`), or an error. -/
inductive StepRes where
  | tok (s : ℕ)
  | done
  | err (e : ℕ)
deriving DecidableEq

/-- The oracle environment of the worker. -/
structure WEnv where
  loadResult : ℕ → List CMsg × Except ℕ ℕ
  promptScript : ℕ → ℕ → ℕ → Except ℕ (List StepRes)

/-- The worker state: the loaded model (if any), the active
`model_params` (as the profile id it was derived from), and the number of
load attempts made so far (indexing the load oracle). -/
structure WState where
  model : Option ℕ
  modelParams : ℕ
  loadCount : ℕ
deriving DecidableEq

/-- The inner token loop of the `Command::Prompt` arm
(src/controller.rs lines 172-188): emit a `Token` message per fragment;
stop silently on `Ok(None)`; emit an `Error` and stop on `Err`; and
after each emitted token, break out if the command queue is non-empty
(`!command_rx.is_empty()`). -/
def promptLoop (pid : ℕ) (queueNonempty : Bool) : List StepRes → List CMsg
  | [] => []
  | .done :: _ => []
  | .err e :: _ => [.error e]
  | .tok s :: rest =>
    .token pid s :: (if queueNonempty then [] else promptLoop pid queueNonempty rest)

/-- Model of `message_loop` (src/controller.rs lines 138-210) over a
static command queue: processes commands in order and returns the emitted
messages together with the final worker state. -/
def message_loop (env : WEnv) : List CCmd → WState → List CMsg × WState
  | [], st => ([], st)
  | .loadModel _ :: rest, st =>
    let lr := env.loadResult st.loadCount
    let st1 := { st with loadCount := st.loadCount + 1 }
    match lr.2 with
    | .ok m =>
      let out := message_loop env rest { st1 with model := some m }
      (lr.1 ++ out.1, out.2)
    | .error e =>
      let out := message_loop env rest st1
      (lr.1 ++ .error e :: out.1, out.2)
  | .prompt pid text :: rest, st =>
    match st.model with
    | none => message_loop env rest st
    | some m =>
      match env.promptScript m text st.modelParams with
      | .error e =>
        let out := message_loop env rest st
        (.error e :: out.1, out.2)
      | .ok script =>
        let out := message_loop env rest st
        (promptLoop pid (!rest.isEmpty) script ++ out.1, out.2)
  | .config cfg :: rest, st => message_loop env rest { st with modelParams := cfg }
  | .stop :: rest, st => message_loop env rest st
  | .reloadWeights _ :: rest, st =>
    let lr := env.loadResult st.loadCount
    let st1 := { st with loadCount := st.loadCount + 1 }
    match lr.2 with
    | .ok m =>
      let out := message_loop env rest { st1 with model := some m }
      (lr.1 ++ out.1, out.2)
    | .error e =>
      let out := message_loop env rest st1
      (lr.1 ++ .error e :: out.1, out.2)
  | .shutdown :: _, st => ([], st)

/-- C10: a `Prompt` command processed while no model is loaded is
silently discarded: the worker emits no message at all (neither `Token`
nor `Error`, for that `PromptId` or any other) and continues with its
state unchanged, exactly as if the command had not been in the queue. -/
theorem prompt_without_model_discarded (env : WEnv) (rest : List CCmd) (st : WState)
    (pid text : ℕ) (hm : st.model = none) :
    message_loop env (.prompt pid text :: rest) st = message_loop env rest st := by
  simp [message_loop, hm]

/-- Witness for C10: a freshly started worker (no model, profile 0)
discards a prompt. -/
theorem prompt_without_model_discarded_witness :
    (⟨none, 0, 0⟩ : WState).model = none ∧
      message_loop ⟨fun _ => ([], .error 0), fun _ _ _ => .error 0⟩
          [.prompt 1 42] ⟨none, 0, 0⟩ =
        message_loop ⟨fun _ => ([], .error 0), fun _ _ _ => .error 0⟩ [] ⟨none, 0, 0⟩ :=
  ⟨rfl,
    prompt_without_model_discarded ⟨fun _ => ([], .error 0), fun _ _ _ => .error 0⟩
      [] ⟨none, 0, 0⟩ 1 42 rfl⟩

/-- C3: when a `ReloadWeights` load attempt fails while a model is
loaded, the worker emits the download messages followed by an `Error`
message and keeps the previously loaded model (only the load-attempt
counter advances), so an immediately following `Prompt` still generates
from the old model's script. -/
theorem reload_failure_keeps_model (env : WEnv) (rest2 : List CCmd) (st : WState)
    (mid pid text m e : ℕ) (dmsgs : List CMsg) (script : List StepRes)
    (hm : st.model = some m)
    (hload : env.loadResult st.loadCount = (dmsgs, .error e))
    (hscript : env.promptScript m text st.modelParams = .ok script) :
    (message_loop env (.reloadWeights mid :: .prompt pid text :: rest2) st).1 =
      dmsgs ++ .error e ::
        (promptLoop pid (!rest2.isEmpty) script ++
          (message_loop env rest2 { st with loadCount := st.loadCount + 1 }).1) ∧
    (message_loop env (.reloadWeights mid :: .prompt pid text :: rest2) st).2 =
      (message_loop env rest2 { st with loadCount := st.loadCount + 1 }).2 ∧
    ({ st with loadCount := st.loadCount + 1 } : WState).model = some m := by
  refine ⟨?_, ?_, hm⟩ <;> simp [message_loop, hload, hm, hscript]

/-- Witness for C3: a loaded model (id 3) survives a failed reload and
still answers the next prompt. -/
theorem reload_failure_keeps_model_witness :
    (message_loop ⟨fun _ => ([.download 7], .error 9), fun _ _ _ => .ok [.tok 5, .done]⟩
        [.reloadWeights 0, .prompt 1 42] ⟨some 3, 0, 0⟩).1 =
      [.download 7] ++ .error 9 ::
        (promptLoop 1 (!([] : List CCmd).isEmpty) [.tok 5, .done] ++
          (message_loop ⟨fun _ => ([.download 7], .error 9), fun _ _ _ => .ok [.tok 5, .done]⟩
            [] ⟨some 3, 0, 1⟩).1) ∧
      (message_loop ⟨fun _ => ([.download 7], .error 9), fun _ _ _ => .ok [.tok 5, .done]⟩
          [.reloadWeights 0, .prompt 1 42] ⟨some 3, 0, 0⟩).2 =
        (message_loop ⟨fun _ => ([.download 7], .error 9), fun _ _ _ => .ok [.tok 5, .done]⟩
          [] ⟨some 3, 0, 1⟩).2 ∧
      (⟨some 3, 0, 1⟩ : WState).model = some 3 :=
  reload_failure_keeps_model
    ⟨fun _ => ([.download 7], .error 9), fun _ _ _ => .ok [.tok 5, .done]⟩
    [] ⟨some 3, 0, 0⟩ 0 1 42 3 9 [.download 7] [.tok 5, .done] rfl rfl rfl

/-- An oracle whose generated tokens encode the active parameter profile,
making parameter changes observable in the message stream. -/
def exampleEnv : WEnv :=
  ⟨fun _ => ([], .error 0),
    fun _ _ cfg => .ok [.tok (100 * cfg + 1), .tok (100 * cfg + 2), .done]⟩

/-- C2 counterexample: with a model loaded under profile 1 and the queue
`[Prompt 1, Config 2, Prompt 2]`, the worker emits exactly one token for
prompt 1 (`token 1 101`, generated under the old profile) and then
abandons the rest of that prompt — the claimed continuation
(`token 1 102`, the remaining token of prompt 1) is never emitted, under
neither the old nor the new parameters; the new profile only takes
effect for prompt 2. -/
theorem config_during_prompt_counterexample :
    (message_loop exampleEnv [.prompt 1 42, .config 2, .prompt 2 43] ⟨some 7, 1, 0⟩).1 =
      [.token 1 101, .token 2 201, .token 2 202] ∧
      CMsg.token 1 102 ∉
        (message_loop exampleEnv [.prompt 1 42, .config 2, .prompt 2 43] ⟨some 7, 1, 0⟩).1 ∧
      CMsg.token 1 202 ∉
        (message_loop exampleEnv [.prompt 1 42, .config 2, .prompt 2 43] ⟨some 7, 1, 0⟩).1 := by
  refine ⟨by decide, by decide, by decide⟩

/-- Number of `Token` messages in a message list. -/
def countTokens (msgs : List CMsg) : ℕ :=
  msgs.countP fun m =>
    match m with
    | .token _ _ => true
    | _ => false

/-- C2 amended: a `Config` command queued while the worker is inside a
Prompt loop causes the non-blocking queue check to abandon the remaining
generation of the current prompt after at most one further token; the
new parameters do not apply to the current prompt — they replace the
active parameters when the `Config` command itself is processed and
govern subsequent prompts. -/
theorem config_during_prompt_abandons (env : WEnv) (rest : List CCmd) (st : WState)
    (pid text cfg m : ℕ) (script : List StepRes)
    (hm : st.model = some m)
    (hscript : env.promptScript m text st.modelParams = .ok script) :
    message_loop env (.prompt pid text :: .config cfg :: rest) st =
      (promptLoop pid true script ++
          (message_loop env rest { st with modelParams := cfg }).1,
        (message_loop env rest { st with modelParams := cfg }).2) ∧
    countTokens (promptLoop pid true script) ≤ 1 := by
  constructor
  · simp [message_loop, hm, hscript]
  · cases script with
    | nil => simp [promptLoop, countTokens]
    | cons s rest2 => cases s <;> simp [promptLoop, countTokens]

/-- Witness for the amended C2. -/
theorem config_during_prompt_abandons_witness :
    message_loop exampleEnv [.prompt 1 42, .config 2] ⟨some 7, 1, 0⟩ =
      (promptLoop 1 true [.tok 101, .tok 102, .done] ++
          (message_loop exampleEnv [] ⟨some 7, 2, 0⟩).1,
        (message_loop exampleEnv [] ⟨some 7, 2, 0⟩).2) ∧
      countTokens (promptLoop 1 true [.tok 101, .tok 102, .done]) ≤ 1 :=
  config_during_prompt_abandons exampleEnv [] ⟨some 7, 1, 0⟩ 1 42 2 7
    [.tok 101, .tok 102, .done] rfl rfl

/-! ## Model of the generation loop and of `TokensStream`

From `src/generator.rs` lines 239-270 (the per-prompt sampling loop: its
`context_size` / `start_pos` computation and the forward invocations of
`generate_token`, line 342) and from `src/models.rs` lines 111-161
(`TokensStream`).  The forward pass plus sampling is an oracle `fwd`
mapping the passed token slice and position offset to the sampled token
id. -/

/-- One recorded forward invocation: the full token vector at call time
and the `start_pos` offset passed; the slice fed to the model is
`tokens.drop startPos`. -/
structure GenCall where
  tokens : List ℕ
  startPos : ℕ
deriving DecidableEq

/-- The forward invocations of the generator prompt loop
(src/generator.rs lines 239-270), for an uninterrupted queue and an
error-free oracle: at step `idx`, `context_size` is the whole vector for
`idx = 0` and `1` afterwards, `start_pos = tokens.len() -
context_size`, and the loop stops on the end-of-sequence token or after
`sample_max` steps. -/
def genLoopTrace (fwd : List ℕ → ℕ → ℕ) (eos : ℕ) : ℕ → List ℕ → ℕ → List GenCall
  | 0, _, _ => []
  | sampleMax + 1, tokens, idx =>
    let contextSize := if 0 < idx then 1 else tokens.length
    let startPos := tokens.length - contextSize
    let t := fwd (tokens.drop startPos) startPos
    if t = eos then [⟨tokens, startPos⟩]
    else ⟨tokens, startPos⟩ :: genLoopTrace fwd eos sampleMax (tokens ++ [t]) (idx + 1)

/-- State of `TokensStream` (src/models.rs lines 112-129); `tokens`
starts as `vec![0]`. -/
structure TokensStream where
  eosToken : ℕ
  promptTokensLen : ℕ
  tokens : List ℕ
  consumed : Bool
deriving DecidableEq

/-- Model of `TokensStream::new`. -/
def TokensStream.new (eos promptLen : ℕ) : TokensStream :=
  ⟨eos, promptLen, [0], false⟩

/-- Model of `TokensStream::next_token` (src/models.rs lines 154-160):
forward the one-token suffix at offset `prompt_tokens_len +
tokens.len()`. -/
def TokensStream.next_token (fwd : List ℕ → ℕ → Except ℕ ℕ) (s : TokensStream) : Except ℕ ℕ :=
  fwd (s.tokens.drop (s.tokens.length - 1)) (s.promptTokensLen + s.tokens.length)

/-- Model of `str::trim_start_matches`: strip every leading occurrence of
the pattern (an empty pattern strips nothing). -/
def trimStartMatches (pat : List ℕ) (text : List ℕ) : List ℕ :=
  if pat.isEmpty then text
  else if pat.isPrefixOf text then trimStartMatches pat (text.drop pat.length)
  else text
termination_by text.length
decreasing_by
  rename_i hpe hpre
  have hlen : 0 < pat.length := by
    cases pat with
    | nil => simp at hpe
    | cons a l => simp
  have hlt : pat.length ≤ text.length :=
    (List.isPrefixOf_iff_prefix.mp hpre).length_le
  simp only [List.length_drop]
  omega

/-- The inner loop of `TokensStream::next` (src/models.rs lines 138-150):
sample tokens until the decoded text grows past the prefix decoded on
entry; the end-of-sequence token marks the stream consumed and yields no
output.  `dec` models `model.decode`; the fuel bounds the unbounded Rust
loop, and its exhaustion is reported as an error (the claims only use
positive fuel). -/
def TokensStream.nextLoop (fwd : List ℕ → ℕ → Except ℕ ℕ) (dec : List ℕ → Except ℕ (List ℕ))
    (decodeIdx : ℕ) (prevText : List ℕ) :
    ℕ → TokensStream → TokensStream × Except ℕ (Option (List ℕ))
  | 0, s => (s, .error 0)
  | fuel + 1, s =>
    match s.next_token fwd with
    | .error e => (s, .error e)
    | .ok token =>
      if token = s.eosToken then ({ s with consumed := true }, .ok none)
      else
        let s2 : TokensStream := { s with tokens := s.tokens ++ [token] }
        match dec (s2.tokens.drop decodeIdx) with
        | .error e => (s2, .error e)
        | .ok text =>
          if prevText.length < text.length then
            (s2, .ok (some (trimStartMatches prevText text)))
          else TokensStream.nextLoop fwd dec decodeIdx prevText fuel s2

/-- Model of `TokensStream::next` (src/models.rs lines 132-152): a
consumed stream yields no output; otherwise decode the trailing window
(`len().saturating_sub(5)`) and run the token loop. -/
def TokensStream.next (fwd : List ℕ → ℕ → Except ℕ ℕ) (dec : List ℕ → Except ℕ (List ℕ))
    (fuel : ℕ) (s : TokensStream) : TokensStream × Except ℕ (Option (List ℕ)) :=
  if s.consumed then (s, .ok none)
  else
    let decodeIdx := s.tokens.length - 5
    match dec (s.tokens.drop decodeIdx) with
    | .error e => (s, .error e)
    | .ok prevText => TokensStream.nextLoop fwd dec decodeIdx prevText fuel s

/-- Per-call invariant of the generator loop continuation (`idx ≥ 1`):
the token vector grows by one per recorded call and every call forwards
the one-token suffix. -/
theorem genLoopTrace_aux (fwd : List ℕ → ℕ → ℕ) (eos : ℕ) :
    ∀ (fuel : ℕ) (tokens : List ℕ) (idx : ℕ), 0 < idx →
      ∀ (k : ℕ) (c : GenCall), (genLoopTrace fwd eos fuel tokens idx)[k]? = some c →
        c.tokens.length = tokens.length + k ∧ c.startPos = c.tokens.length - 1 := by
  intro fuel
  induction fuel with
  | zero =>
    intro tokens idx _ k c hc
    simp [genLoopTrace] at hc
  | succ n ih =>
    intro tokens idx hidx k c hc
    simp only [genLoopTrace, if_pos hidx] at hc
    split at hc
    · cases k with
      | zero =>
        obtain rfl : (⟨tokens, tokens.length - 1⟩ : GenCall) = c := by
          simpa using hc
        exact ⟨by simp, rfl⟩
      | succ j => simp at hc
    · cases k with
      | zero =>
        obtain rfl : (⟨tokens, tokens.length - 1⟩ : GenCall) = c := by
          simpa using hc
        exact ⟨by simp, rfl⟩
      | succ j =>
        rw [List.getElem?_cons_succ] at hc
        obtain ⟨h1, h2⟩ := ih (tokens ++ [fwd (tokens.drop (tokens.length - 1))
          (tokens.length - 1)]) (idx + 1) (Nat.succ_pos idx) j c hc
        refine ⟨?_, h2⟩
        rw [h1]
        simp
        omega

/-- C7: (1) the very first recorded step of the generator prompt loop
forwards the entire prompt token sequence at position offset 0; (2) every
later step forwards the unconsumed one-token suffix at an offset equal to
the running token count (the `prompt.length + k - 1` tokens already
consumed, i.e. offset + 1 = current length); (3) a consumed
`TokensStream` yields no output and is left unchanged by `next`; and (4)
whenever the sampled token equals the end-of-sequence id, the token loop
marks the stream consumed and returns no output. -/
theorem generation_loop_offsets :
    (∀ (fwd : List ℕ → ℕ → ℕ) (eos sampleMax : ℕ) (prompt : List ℕ), 0 < sampleMax →
      (genLoopTrace fwd eos sampleMax prompt 0).head? = some ⟨prompt, 0⟩) ∧
    (∀ (fwd : List ℕ → ℕ → ℕ) (eos sampleMax : ℕ) (prompt : List ℕ) (k : ℕ) (c : GenCall),
      0 < k → (genLoopTrace fwd eos sampleMax prompt 0)[k]? = some c →
        c.tokens.length = prompt.length + k ∧ c.startPos + 1 = c.tokens.length ∧
          (c.tokens.drop c.startPos).length = 1) ∧
    (∀ (fwd : List ℕ → ℕ → Except ℕ ℕ) (dec : List ℕ → Except ℕ (List ℕ)) (fuel : ℕ)
      (s : TokensStream), s.consumed = true →
        TokensStream.next fwd dec fuel s = (s, .ok none)) ∧
    (∀ (fwd : List ℕ → ℕ → Except ℕ ℕ) (dec : List ℕ → Except ℕ (List ℕ))
      (decodeIdx : ℕ) (prevText : List ℕ) (fuel : ℕ) (s : TokensStream),
      s.next_token fwd = .ok s.eosToken →
        TokensStream.nextLoop fwd dec decodeIdx prevText (fuel + 1) s =
          ({ s with consumed := true }, .ok none)) := by
  refine ⟨?_, ?_, ?_, ?_⟩
  · intro fwd eos sampleMax prompt hpos
    cases sampleMax with
    | zero => omega
    | succ n =>
      simp only [genLoopTrace]
      split
      · rename_i hctx
        exact absurd hctx (by omega)
      · simp only [Nat.sub_self]
        split <;> rfl
  · intro fwd eos sampleMax prompt k c hk hc
    cases sampleMax with
    | zero => simp [genLoopTrace] at hc
    | succ n =>
      cases k with
      | zero => omega
      | succ j =>
        simp only [genLoopTrace, if_neg (lt_irrefl 0), Nat.sub_self] at hc
        split at hc
        · simp at hc
        · rw [List.getElem?_cons_succ] at hc
          obtain ⟨h1, h2⟩ := genLoopTrace_aux fwd eos n (prompt ++ [fwd (prompt.drop 0) 0])
            1 Nat.one_pos j c hc
          have hlen : c.tokens.length = prompt.length + (j + 1) := by
            rw [h1]
            simp
            omega
          have hpos2 : 0 < c.tokens.length := by omega
          refine ⟨hlen, by omega, ?_⟩
          rw [List.length_drop, h2]
          omega
  · intro fwd dec fuel s hcons
    simp [TokensStream.next, hcons]
  · intro fwd dec decodeIdx prevText fuel s hfwd
    simp [TokensStream.nextLoop, hfwd]

/-- Witness for C7 at a concrete oracle, prompt and stream. -/
theorem generation_loop_offsets_witness :
    (genLoopTrace (fun _ _ => 7) 5 3 [1, 2] 0).head? = some ⟨[1, 2], 0⟩ ∧
      ((⟨[1, 2, 7], 2⟩ : GenCall).tokens.length = 3 ∧
        (⟨[1, 2, 7], 2⟩ : GenCall).startPos + 1 = 3 ∧
        ((⟨[1, 2, 7], 2⟩ : GenCall).tokens.drop 2).length = 1) ∧
      TokensStream.next (fun _ _ => .ok 9) (fun _ => .ok []) 4 ⟨5, 3, [0], true⟩ =
        (⟨5, 3, [0], true⟩, .ok none) ∧
      TokensStream.nextLoop (fun _ _ => .ok 5) (fun _ => .ok []) 0 [] 4 ⟨5, 3, [0], false⟩ =
        (⟨5, 3, [0], true⟩, .ok none) := by
  refine ⟨generation_loop_offsets.1 (fun _ _ => 7) 5 3 [1, 2] (by norm_num), ?_, ?_, ?_⟩
  · have h := generation_loop_offsets.2.1 (fun _ _ => 7) 5 3 [1, 2] 1 ⟨[1, 2, 7], 2⟩
      (by norm_num) (by decide)
    exact h
  · exact generation_loop_offsets.2.2.1 (fun _ _ => .ok 9) (fun _ => .ok []) 4
      ⟨5, 3, [0], true⟩ rfl
  · exact generation_loop_offsets.2.2.2 (fun _ _ => .ok 5) (fun _ => .ok []) 0 [] 3
      ⟨5, 3, [0], false⟩ rfl

/-! ## Model of the arcade100k byte-pair tokenizer

From `src/generator/arcade100k.rs`.  Texts and vocabulary entries are
byte lists.  The encoder/decoder tables (built from the bundled
`arcade100k.tiktoken` data file) and the special-token tables are
parameters: `enc`/`dec` model `encoder`/`decoder` lookups (the decoder is
built in `Arcade100k::new` by inverting the encoder) and
`specEnc`/`specDec` the special-token tables.  The regex pre-tokenizer
(an external `fancy_regex` collaborator) is abstracted by the segment
list it produces: `encode`'s scanning loop yields, in order, ordinary
regex-matched runs and special-token occurrences whose concatenation is
the input text. -/

/-- The `u32::MAX` sentinel rank. -/
def u32MAX : ℕ := 4294967295

/-- The byte sub-range `piece[a..b]`. -/
def byteSlice (piece : List ℕ) (a b : ℕ) : List ℕ :=
  (piece.take b).drop a

/-- Model of the `get_rank` closure of `byte_pair_merge`
(src/generator/arcade100k.rs lines 22-33): the rank of the byte range
spanning the parts at `start_idx` and `start_idx + skip + 2`, when the
latter exists. -/
def getRank (ranks : List ℕ → Option ℕ) (piece : List ℕ) (parts : List (ℕ × ℕ))
    (startIdx skip : ℕ) : Option ℕ :=
  if startIdx + skip + 2 < parts.length then
    ranks (byteSlice piece (parts.getD startIdx (0, 0)).1 (parts.getD (startIdx + skip + 2) (0, 0)).1)
  else none

/-- The `parts` vector after its initial fill (src/generator/arcade100k.rs
lines 20, 37-48): position `i` paired with the rank of `piece[i..i+2]`
when that pair exists (the fill loop only reads positions, which it never
modifies, so the loop is equivalent to this direct construction);
`u32::MAX` is the sentinel for "no rank". -/
def initParts (ranks : List ℕ → Option ℕ) (piece : List ℕ) : List (ℕ × ℕ) :=
  (List.range (piece.length + 1)).map fun i =>
    (i, if i + 2 < piece.length + 1 then (ranks (byteSlice piece i (i + 2))).getD u32MAX else u32MAX)

/-- The minimum-rank scan (src/generator/arcade100k.rs lines 66-71):
fold over `parts[..parts.len()-1].iter().enumerate()` keeping the first
strictly smaller rank, starting from `(u32::MAX, 0)`. -/
def minRankFold (parts : List (ℕ × ℕ)) : ℕ × ℕ :=
  parts.dropLast.enum.foldl
    (fun acc ipr => if ipr.2.2 < acc.1 then (ipr.2.2, ipr.1) else acc) (u32MAX, 0)

/-- The merge loop of `byte_pair_merge` (src/generator/arcade100k.rs
lines 59-90): while some pair has a real rank, take the lowest-ranked
index `i`, re-evaluate the ranks at `i` (skipping the removed part) and
at `i - 1`, and remove `parts[i + 1]`.  Each iteration shortens the
vector, so the fuel `piece.length + 1` suffices. -/
def mergeLoop (ranks : List ℕ → Option ℕ) (piece : List ℕ) : ℕ → List (ℕ × ℕ) → List (ℕ × ℕ)
  | 0, parts => parts
  | fuel + 1, parts =>
    if parts.length = 1 then parts
    else
      let mr := minRankFold parts
      if mr.1 ≠ u32MAX then
        let i := mr.2
        let parts1 :=
          parts.set i ((parts.getD i (0, 0)).1, (getRank ranks piece parts i 1).getD u32MAX)
        let parts2 :=
          if 0 < i then
            parts1.set (i - 1)
              ((parts1.getD (i - 1) (0, 0)).1, (getRank ranks piece parts1 (i - 1) 1).getD u32MAX)
          else parts1
        mergeLoop ranks piece fuel (parts2.eraseIdx (i + 1))
      else parts

/-- Model of `byte_pair_merge` (src/generator/arcade100k.rs lines 12-96),
returning the byte ranges delimited by the surviving consecutive
positions. -/
def byte_pair_merge (ranks : List ℕ → Option ℕ) (piece : List ℕ) : List (ℕ × ℕ) :=
  let parts := mergeLoop ranks piece (piece.length + 1) (initParts ranks piece)
  (parts.map Prod.fst).zip (parts.map Prod.fst).tail

/-- Model of `byte_pair_encode` (src/generator/arcade100k.rs lines
98-103): single bytes are looked up directly; otherwise every merged
range is looked up in the rank table.  A missing entry is a Rust
indexing panic, modelled as `none`. -/
def byte_pair_encode (ranks : List ℕ → Option ℕ) (piece : List ℕ) : Option (List ℕ) :=
  if piece.length = 1 then (ranks piece).map fun t => [t]
  else (byte_pair_merge ranks piece).mapM fun r => ranks (byteSlice piece r.1 r.2)

/-- A pre-tokenized segment of the input text: an ordinary regex run, or
a special-token occurrence (recognised by the special regex and checked
against the special table before byte-pair logic is bypassed). -/
inductive Seg where
  | ord (bs : List ℕ)
  | special (bs : List ℕ)
deriving DecidableEq

/-- The bytes of a segment. -/
def segBytes : Seg → List ℕ
  | .ord bs => bs
  | .special bs => bs

/-- The bytes of a segment list (their concatenation is the input text). -/
def segsBytes (segs : List Seg) : List ℕ :=
  segs.flatMap segBytes

/-- Model of `Arcade100k::encode` (src/generator/arcade100k.rs lines
225-276) over the pre-tokenized segments: an ordinary run found whole in
the encoder yields its token, otherwise its byte-pair encoding; a special
run yields its special-token id.  `none` models the byte-pair panic on a
vocabulary miss. -/
def encodeSegs (enc specEnc : List ℕ → Option ℕ) : List Seg → Option (List ℕ)
  | [] => some []
  | .ord bs :: rest =>
    let ts? : Option (List ℕ) :=
      match enc bs with
      | some t => some [t]
      | none => byte_pair_encode enc bs
    match ts?, encodeSegs enc specEnc rest with
    | some ts, some rs => some (ts ++ rs)
    | _, _ => none
  | .special bs :: rest =>
    match specEnc bs, encodeSegs enc specEnc rest with
    | some t, some rs => some (t :: rs)
    | _, _ => none

/-- Per-token byte lookup of `Arcade100k::decode`
(src/generator/arcade100k.rs lines 214-218): the regular decoder first,
then the special-token decoder. -/
def lookupToken (dec specDec : ℕ → Option (List ℕ)) (t : ℕ) : Option (List ℕ) :=
  match dec t with
  | some bs => some bs
  | none => specDec t

/-- The byte concatenation loop of `Arcade100k::decode`; an unknown id is
an error (`none`). -/
def decodeBytes (dec specDec : ℕ → Option (List ℕ)) : List ℕ → Option (List ℕ)
  | [] => some []
  | t :: ts =>
    match lookupToken dec specDec t, decodeBytes dec specDec ts with
    | some bs, some rest => some (bs ++ rest)
    | _, _ => none

/-- The U+FFFD replacement character, as UTF-8 bytes. -/
def replBytes : List ℕ := [239, 191, 189]

/-- A UTF-8 continuation byte. -/
def utf8Cont (b : ℕ) : Bool :=
  128 ≤ b ∧ b < 192

/-- Model of `String::from_utf8_lossy`: well-formed UTF-8 sequences pass
through unchanged and ill-formed sequences are replaced by U+FFFD
(consuming the maximal valid prefix of a sequence, per the WHATWG
practice std follows).  On the bytes of any valid UTF-8 string this is
the identity. -/
def utf8Lossy : List ℕ → List ℕ
  | [] => []
  | b :: rest =>
    if b < 128 then b :: utf8Lossy rest
    else if 194 ≤ b ∧ b ≤ 223 then
      match rest with
      | c1 :: rest2 =>
        if utf8Cont c1 then b :: c1 :: utf8Lossy rest2
        else replBytes ++ utf8Lossy (c1 :: rest2)
      | [] => replBytes
    else if 224 ≤ b ∧ b ≤ 239 then
      match rest with
      | c1 :: rest2 =>
        if (b = 224 ∧ 160 ≤ c1 ∧ c1 < 192) ∨ (b = 237 ∧ 128 ≤ c1 ∧ c1 < 160) ∨
            (b ≠ 224 ∧ b ≠ 237 ∧ utf8Cont c1 = true) then
          match rest2 with
          | c2 :: rest3 =>
            if utf8Cont c2 then b :: c1 :: c2 :: utf8Lossy rest3
            else replBytes ++ utf8Lossy (c2 :: rest3)
          | [] => replBytes
        else replBytes ++ utf8Lossy (c1 :: rest2)
      | [] => replBytes
    else if 240 ≤ b ∧ b ≤ 244 then
      match rest with
      | c1 :: rest2 =>
        if (b = 240 ∧ 144 ≤ c1 ∧ c1 < 192) ∨ (b = 244 ∧ 128 ≤ c1 ∧ c1 < 144) ∨
            (b ≠ 240 ∧ b ≠ 244 ∧ utf8Cont c1 = true) then
          match rest2 with
          | c2 :: rest3 =>
            if utf8Cont c2 then
              match rest3 with
              | c3 :: rest4 =>
                if utf8Cont c3 then b :: c1 :: c2 :: c3 :: utf8Lossy rest4
                else replBytes ++ utf8Lossy (c3 :: rest4)
              | [] => replBytes
            else replBytes ++ utf8Lossy (c2 :: rest3)
          | [] => replBytes
        else replBytes ++ utf8Lossy (c1 :: rest2)
      | [] => replBytes
    else replBytes ++ utf8Lossy rest

/-- Model of `Arcade100k::decode` (src/generator/arcade100k.rs lines
211-223): resolve every id, concatenate the bytes, interpret lossily as
UTF-8. -/
def arcadeDecode (dec specDec : ℕ → Option (List ℕ)) (ts : List ℕ) : Option (List ℕ) :=
  (decodeBytes dec specDec ts).map utf8Lossy

/-! ## The byte-pair merge produces a partition of the piece -/

theorem getD_eq_getElem?_getD' {α : Type} (l : List α) (i : ℕ) (d : α) :
    l.getD i d = (l[i]?).getD d :=
  List.getD_eq_getElem?_getD l i d

theorem map_fst_eraseIdx (l : List (ℕ × ℕ)) :
    ∀ j : ℕ, (l.eraseIdx j).map Prod.fst = (l.map Prod.fst).eraseIdx j := by
  induction l with
  | nil => intro j; rfl
  | cons p rest ih =>
    intro j
    cases j with
    | zero => rfl
    | succ j2 =>
      show (p.1 :: (rest.eraseIdx j2).map Prod.fst) = p.1 :: (rest.map Prod.fst).eraseIdx j2
      rw [ih]

theorem map_fst_set_fst (l : List (ℕ × ℕ)) (i : ℕ) (r : ℕ) :
    (l.set i ((l.getD i (0, 0)).1, r)).map Prod.fst = l.map Prod.fst := by
  induction l generalizing i with
  | nil => rfl
  | cons p rest ih =>
    cases i with
    | zero => rfl
    | succ i2 =>
      show p.1 :: (rest.set i2 ((rest.getD i2 (0, 0)).1, r)).map Prod.fst = p.1 :: rest.map Prod.fst
      rw [ih]

theorem getD_set_self {α : Type} (l : List α) (i : ℕ) (v d : α) (h : i < l.length) :
    (l.set i v).getD i d = v := by
  rw [getD_eq_getElem?_getD', List.getElem?_set_self h]
  rfl

theorem getD_set_ne {α : Type} (l : List α) (i j : ℕ) (v d : α) (h : i ≠ j) :
    (l.set i v).getD j d = l.getD j d := by
  rw [getD_eq_getElem?_getD', List.getElem?_set_ne h, ← getD_eq_getElem?_getD']

theorem getD_eraseIdx_of_lt {α : Type} (l : List α) (i j : ℕ) (d : α) (h : j < i) :
    (l.eraseIdx i).getD j d = l.getD j d := by
  rw [getD_eq_getElem?_getD', List.getElem?_eraseIdx_of_lt l i j h, ← getD_eq_getElem?_getD']

theorem getD_eraseIdx_of_ge {α : Type} (l : List α) (i j : ℕ) (d : α) (h : i ≤ j) :
    (l.eraseIdx i).getD j d = l.getD (j + 1) d := by
  rw [getD_eq_getElem?_getD', List.getElem?_eraseIdx_of_ge l i j h, ← getD_eq_getElem?_getD']

theorem getD_dropLast (l : List (ℕ × ℕ)) (i : ℕ) (h : i < l.length - 1) :
    l.dropLast.getD i (0, 0) = l.getD i (0, 0) := by
  rw [List.dropLast_eq_take, getD_eq_getElem?_getD', List.getElem?_take_of_lt h,
    ← getD_eq_getElem?_getD']

theorem getLast?_eraseIdx (l : List ℕ) : ∀ j : ℕ, j + 1 < l.length →
    (l.eraseIdx j).getLast? = l.getLast? := by
  induction l with
  | nil => intro j h; simp at h
  | cons a rest ih =>
    intro j h
    cases j with
    | zero =>
      cases rest with
      | nil => simp at h
      | cons b rest2 => simp [List.eraseIdx]
    | succ j2 =>
      have hr : j2 + 1 < rest.length := by
        simp only [List.length_cons] at h
        omega
      have hrne : rest.eraseIdx j2 ≠ [] := by
        have := @List.length_eraseIdx_of_lt _ rest j2 (by omega)
        intro hc
        rw [hc] at this
        simp at this
        omega
      show (a :: rest.eraseIdx j2).getLast? = (a :: rest).getLast?
      cases hre : rest.eraseIdx j2 with
      | nil => exact absurd hre hrne
      | cons c rest3 =>
        cases rest with
        | nil => simp at hr
        | cons b rest2 =>
          rw [List.getLast?_cons_cons, ← hre, ih j2 hr]
          rw [List.getLast?_cons_cons]

theorem minRankFold_go :
    ∀ (l : List (ℕ × ℕ)) (k : ℕ) (acc : ℕ × ℕ),
      (List.enumFrom k l).foldl
          (fun acc ipr => if ipr.2.2 < acc.1 then (ipr.2.2, ipr.1) else acc) acc = acc ∨
      ∃ j, j < l.length ∧
        ((List.enumFrom k l).foldl
          (fun acc ipr => if ipr.2.2 < acc.1 then (ipr.2.2, ipr.1) else acc) acc).2 = k + j ∧
        (l.getD j (0, 0)).2 =
          ((List.enumFrom k l).foldl
            (fun acc ipr => if ipr.2.2 < acc.1 then (ipr.2.2, ipr.1) else acc) acc).1 := by
  intro l
  induction l with
  | nil => intro k acc; left; rfl
  | cons p rest ih =>
    intro k acc
    have hstep : (List.enumFrom k (p :: rest)).foldl
        (fun acc ipr => if ipr.2.2 < acc.1 then (ipr.2.2, ipr.1) else acc) acc =
        (List.enumFrom (k + 1) rest).foldl
          (fun acc ipr => if ipr.2.2 < acc.1 then (ipr.2.2, ipr.1) else acc)
          (if p.2 < acc.1 then (p.2, k) else acc) := rfl
    rw [hstep]
    by_cases hc : p.2 < acc.1
    · rw [if_pos hc]
      rcases ih (k + 1) (p.2, k) with h | ⟨j, hj1, hj2, hj3⟩
      · right
        refine ⟨0, by simp, ?_, ?_⟩
        · rw [h]; omega
        · rw [h]
          rfl
      · right
        refine ⟨j + 1, by simp; omega, ?_, ?_⟩
        · rw [hj2]; omega
        · exact hj3
    · rw [if_neg hc]
      rcases ih (k + 1) acc with h | ⟨j, hj1, hj2, hj3⟩
      · left; exact h
      · right
        refine ⟨j + 1, by simp; omega, ?_, ?_⟩
        · rw [hj2]; omega
        · exact hj3

theorem minRankFold_spec (parts : List (ℕ × ℕ)) (r i : ℕ)
    (h : minRankFold parts = (r, i)) (hne : r ≠ u32MAX) :
    i < parts.dropLast.length ∧ (parts.dropLast.getD i (0, 0)).2 = r := by
  have heq : minRankFold parts =
      (List.enumFrom 0 parts.dropLast).foldl
        (fun acc ipr => if ipr.2.2 < acc.1 then (ipr.2.2, ipr.1) else acc) (u32MAX, 0) := rfl
  rcases minRankFold_go parts.dropLast 0 (u32MAX, 0) with hl | ⟨j, hj1, hj2, hj3⟩
  · exfalso
    apply hne
    have h2 : minRankFold parts = (u32MAX, 0) := heq.trans hl
    rw [h] at h2
    exact congrArg Prod.fst h2
  · rw [← heq, h] at hj2 hj3
    simp only at hj2 hj3
    have hij : i = j := by omega
    subst hij
    exact ⟨hj1, hj3⟩

/-- The invariant of the `parts` vector through the merge loop: at least
two entries, strictly increasing positions running from `0` to `n`, and
sentinel ranks on the last two entries. -/
structure PartsInv (n : ℕ) (parts : List (ℕ × ℕ)) : Prop where
  len2 : 2 ≤ parts.length
  sorted : (parts.map Prod.fst).Pairwise (· < ·)
  headEq : (parts.map Prod.fst).head? = some 0
  lastEq : (parts.map Prod.fst).getLast? = some n
  lastMax : ∀ j, parts.length ≤ j + 2 → j < parts.length → (parts.getD j (0, 0)).2 = u32MAX

theorem initParts_map_fst (ranks : List ℕ → Option ℕ) (piece : List ℕ) :
    (initParts ranks piece).map Prod.fst = List.range (piece.length + 1) := by
  rw [initParts, List.map_map]
  exact List.map_congr_left (fun x _ => rfl) |>.trans (List.map_id _)

theorem initParts_getD (ranks : List ℕ → Option ℕ) (piece : List ℕ) (j : ℕ)
    (h : j < piece.length + 1) :
    (initParts ranks piece).getD j (0, 0) =
      (j, if j + 2 < piece.length + 1 then (ranks (byteSlice piece j (j + 2))).getD u32MAX
        else u32MAX) := by
  rw [getD_eq_getElem?_getD', initParts, List.getElem?_map, List.getElem?_range h]
  rfl

theorem initParts_inv (ranks : List ℕ → Option ℕ) (piece : List ℕ) (hp : 1 ≤ piece.length) :
    PartsInv piece.length (initParts ranks piece) := by
  have hlen : (initParts ranks piece).length = piece.length + 1 := by
    simp [initParts]
  refine ⟨?_, ?_, ?_, ?_, ?_⟩
  · omega
  · rw [initParts_map_fst]
    exact List.pairwise_lt_range _
  · rw [initParts_map_fst, List.range_succ_eq_map]
    rfl
  · rw [initParts_map_fst, List.range_succ]
    exact List.getLast?_concat _
  · intro j h2 h1
    rw [hlen] at h1 h2
    rw [initParts_getD ranks piece j h1]
    simp only
    rw [if_neg (by omega)]

theorem eraseStep_inv (piece : List ℕ) (parts parts2 : List (ℕ × ℕ)) (i : ℕ)
    (inv : PartsInv piece.length parts)
    (hi3 : i + 3 ≤ parts.length)
    (hfst : parts2.map Prod.fst = parts.map Prod.fst)
    (hranks : ∀ j, i + 1 ≤ j → parts2.getD j (0, 0) = parts.getD j (0, 0))
    (hrankI : parts.length ≤ i + 3 → (parts2.getD i (0, 0)).2 = u32MAX) :
    PartsInv piece.length (parts2.eraseIdx (i + 1)) := by
  have hlen2 : parts2.length = parts.length := by
    have := congrArg List.length hfst
    simpa using this
  have hi1lt : i + 1 < parts2.length := by omega
  have hlen3 : (parts2.eraseIdx (i + 1)).length = parts.length - 1 := by
    rw [List.length_eraseIdx_of_lt hi1lt, hlen2]
  refine ⟨?_, ?_, ?_, ?_, ?_⟩
  · omega
  · rw [map_fst_eraseIdx, hfst]
    exact inv.sorted.eraseIdx _
  · rw [map_fst_eraseIdx, hfst]
    have h0 := inv.headEq
    cases hpos : parts.map Prod.fst with
    | nil => rw [hpos] at h0; exact Option.noConfusion h0
    | cons a tl =>
      rw [hpos] at h0
      have ha : a = 0 := by
        simpa using h0
      subst ha
      rfl
  · rw [map_fst_eraseIdx, hfst]
    rw [getLast?_eraseIdx (parts.map Prod.fst) (i + 1) (by simp; omega)]
    exact inv.lastEq
  · intro j h2 h1
    rw [hlen3] at h1 h2
    by_cases hj : i + 1 ≤ j
    · rw [getD_eraseIdx_of_ge _ _ _ _ hj, hranks (j + 1) (by omega)]
      exact inv.lastMax (j + 1) (by omega) (by omega)
    · have hji : j = i := by omega
      subst hji
      rw [getD_eraseIdx_of_lt _ _ _ _ (by omega)]
      exact hrankI (by omega)

theorem mergeLoop_inv (ranks : List ℕ → Option ℕ) (piece : List ℕ) :
    ∀ (fuel : ℕ) (parts : List (ℕ × ℕ)), PartsInv piece.length parts →
      PartsInv piece.length (mergeLoop ranks piece fuel parts) := by
  intro fuel
  induction fuel with
  | zero => intro parts h; exact h
  | succ n ih =>
    intro parts h
    rw [mergeLoop]
    split
    · exact h
    · simp only []
      split
      · rename_i hlen1 hcond
        apply ih
        have hmr : minRankFold parts = ((minRankFold parts).1, (minRankFold parts).2) := rfl
        obtain ⟨hi1, hi2⟩ := minRankFold_spec parts (minRankFold parts).1 (minRankFold parts).2
          hmr hcond
        have hLpos : 1 ≤ parts.length := by
          have := h.len2
          omega
        have hidrop : (minRankFold parts).2 < parts.length - 1 := by
          rw [List.length_dropLast] at hi1
          exact hi1
        have hgd : (parts.getD (minRankFold parts).2 (0, 0)).2 = (minRankFold parts).1 := by
          rw [← getD_dropLast parts (minRankFold parts).2 hidrop]
          exact hi2
        have hi3 : (minRankFold parts).2 + 3 ≤ parts.length := by
          by_contra hcon
          apply hcond
          rw [← hgd]
          exact h.lastMax (minRankFold parts).2 (by omega) (by omega)
        by_cases hipos : 0 < (minRankFold parts).2
        · rw [if_pos hipos]
          apply eraseStep_inv piece parts _ (minRankFold parts).2 h hi3
          · rw [map_fst_set_fst, map_fst_set_fst]
          · intro j hj
            rw [getD_set_ne _ _ _ _ _ (by omega), getD_set_ne _ _ _ _ _ (by omega)]
          · intro hle
            rw [getD_set_ne _ _ _ _ _ (by omega)]
            rw [getD_set_self _ _ _ _ (by omega)]
            simp only
            rw [getRank, if_neg (by omega)]
            rfl
        · rw [if_neg hipos]
          apply eraseStep_inv piece parts _ (minRankFold parts).2 h hi3
          · rw [map_fst_set_fst]
          · intro j hj
            rw [getD_set_ne _ _ _ _ _ (by omega)]
          · intro hle
            rw [getD_set_self _ _ _ _ (by omega)]
            simp only
            rw [getRank, if_neg (by omega)]
            rfl
      · exact h

theorem pairwise_le_getLast (l : List ℕ) (b L : ℕ)
    (hp : (b :: l).Pairwise (· < ·)) (hL : (b :: l).getLast? = some L) : b ≤ L := by
  have hne : (b :: l) ≠ [] := by simp
  have hmem : L ∈ b :: l := by
    rw [List.getLast?_eq_getLast _ hne] at hL
    have h2 : (b :: l).getLast hne = L := by injection hL
    rw [← h2]
    exact List.getLast_mem hne
  rcases List.mem_cons.mp hmem with rfl | hmem2
  · exact le_refl _
  · exact le_of_lt ((List.pairwise_cons.mp hp).1 L hmem2)

theorem byteSlice_glue (piece : List ℕ) (a b c : ℕ) (hab : a ≤ b) (hbc : b ≤ c)
    (hcl : c ≤ piece.length) :
    byteSlice piece a b ++ byteSlice piece b c = byteSlice piece a c := by
  have htk : piece.take b = (piece.take c).take b := by
    rw [List.take_take, min_eq_left hbc]
  have hlen : ((piece.take c).take b).length = b := by
    simp [List.length_take]
    omega
  rw [byteSlice, byteSlice, byteSlice, htk]
  have hsplit : (piece.take c) = (piece.take c).take b ++ (piece.take c).drop b :=
    (List.take_append_drop b (piece.take c)).symm
  calc ((piece.take c).take b).drop a ++ (piece.take c).drop b
      = (((piece.take c).take b) ++ (piece.take c).drop b).drop a := by
        rw [List.drop_append_of_le_length (by omega)]
    _ = (piece.take c).drop a := by rw [← hsplit]

theorem flat_ranges (piece : List ℕ) :
    ∀ (ps : List ℕ) (a L : ℕ), (a :: ps).Pairwise (· < ·) →
      (a :: ps).getLast? = some L → L ≤ piece.length →
      ((a :: ps).zip ps).flatMap (fun r => byteSlice piece r.1 r.2) = byteSlice piece a L := by
  intro ps
  induction ps with
  | nil =>
    intro a L _ hL hLle
    have ha : a = L := by simpa using hL
    subst ha
    show ([] : List ℕ) = byteSlice piece a a
    rw [byteSlice, List.drop_eq_nil_of_le]
    simp [List.length_take]
  | cons b rest ih =>
    intro a L hp hL hLle
    have hab : a < b := (List.pairwise_cons.mp hp).1 b (by simp)
    have hp2 : (b :: rest).Pairwise (· < ·) := (List.pairwise_cons.mp hp).2
    have hL2 : (b :: rest).getLast? = some L := by
      rw [← List.getLast?_cons_cons]
      exact hL
    have hbL : b ≤ L := pairwise_le_getLast rest b L hp2 hL2
    show byteSlice piece a b ++ ((b :: rest).zip rest).flatMap (fun r => byteSlice piece r.1 r.2) =
      byteSlice piece a L
    rw [ih b L hp2 hL2 hLle]
    exact byteSlice_glue piece a b L (le_of_lt hab) hbL hLle

/-- The byte ranges produced by `byte_pair_merge` always partition the
piece: concatenating the range slices restores it. -/
theorem byte_pair_merge_flatten (ranks : List ℕ → Option ℕ) (piece : List ℕ) :
    (byte_pair_merge ranks piece).flatMap (fun r => byteSlice piece r.1 r.2) = piece := by
  cases hp : piece with
  | nil => rfl
  | cons b0 brest =>
    rw [← hp]
    have hp1 : 1 ≤ piece.length := by rw [hp]; simp
    have hinv := mergeLoop_inv ranks piece (piece.length + 1) (initParts ranks piece)
      (initParts_inv ranks piece hp1)
    set parts := mergeLoop ranks piece (piece.length + 1) (initParts ranks piece) with hparts
    have hpos : (parts.map Prod.fst).head? = some 0 := hinv.headEq
    cases hmf : parts.map Prod.fst with
    | nil => rw [hmf] at hpos; exact Option.noConfusion hpos
    | cons a ps =>
      rw [hmf] at hpos
      have ha : a = 0 := by simpa using hpos
      subst ha
      have hlast : (0 :: ps).getLast? = some piece.length := by
        rw [← hmf]; exact hinv.lastEq
      have hsort : (0 :: ps).Pairwise (· < ·) := by
        rw [← hmf]; exact hinv.sorted
      have hres : byte_pair_merge ranks piece = (0 :: ps).zip ps := by
        rw [byte_pair_merge, ← hparts, hmf]
        rfl
      rw [hres, flat_ranges piece ps 0 piece.length hsort hlast (le_refl _)]
      rw [byteSlice, List.take_length, List.drop_zero]

theorem decodeBytes_append (dec specDec : ℕ → Option (List ℕ)) :
    ∀ (ts rs : List ℕ) (bs cs : List ℕ),
      decodeBytes dec specDec ts = some bs → decodeBytes dec specDec rs = some cs →
      decodeBytes dec specDec (ts ++ rs) = some (bs ++ cs) := by
  intro ts
  induction ts with
  | nil =>
    intro rs bs cs hts hrs
    have hbs : bs = [] := by
      have : some ([] : List ℕ) = some bs := hts
      injection this with h
      exact h.symm
    subst hbs
    simpa using hrs
  | cons t ts2 ih =>
    intro rs bs cs hts hrs
    rw [decodeBytes] at hts
    rcases hlk : lookupToken dec specDec t with _ | v <;> rw [hlk] at hts
    · exact Option.noConfusion hts
    · rcases hdb : decodeBytes dec specDec ts2 with _ | w <;> rw [hdb] at hts
      · exact Option.noConfusion hts
      · have hbs : v ++ w = bs := by injection hts
        subst hbs
        show decodeBytes dec specDec (t :: (ts2 ++ rs)) = _
        rw [decodeBytes, hlk, ih rs w cs hdb hrs]
        simp

theorem decodeBytes_mapM (enc : List ℕ → Option ℕ) (dec specDec : ℕ → Option (List ℕ))
    (piece : List ℕ) (hdec : ∀ bs t, enc bs = some t → dec t = some bs) :
    ∀ (ranges : List (ℕ × ℕ)) (ts : List ℕ),
      ranges.mapM (fun r => enc (byteSlice piece r.1 r.2)) = some ts →
      decodeBytes dec specDec ts = some (ranges.flatMap fun r => byteSlice piece r.1 r.2) := by
  intro ranges
  induction ranges with
  | nil =>
    intro ts hts
    have : ts = [] := by
      have h2 : some ([] : List ℕ) = some ts := hts
      injection h2 with h
      exact h.symm
    subst this
    rfl
  | cons r rs ih =>
    intro ts hts
    rw [List.mapM_cons] at hts
    rcases henc : enc (byteSlice piece r.1 r.2) with _ | t <;> rw [henc] at hts
    · exact Option.noConfusion hts
    · rcases hmm : rs.mapM (fun r => enc (byteSlice piece r.1 r.2)) with _ | ts2 <;>
        rw [hmm] at hts
      · exact Option.noConfusion hts
      · have hts2 : t :: ts2 = ts := by
          simpa using hts
        subst hts2
        show decodeBytes dec specDec (t :: ts2) = _
        rw [decodeBytes, lookupToken, hdec _ _ henc, ih ts2 hmm]
        simp

theorem byte_pair_encode_decodes (enc : List ℕ → Option ℕ) (dec specDec : ℕ → Option (List ℕ))
    (piece ts : List ℕ) (hdec : ∀ bs t, enc bs = some t → dec t = some bs)
    (henc : byte_pair_encode enc piece = some ts) :
    decodeBytes dec specDec ts = some piece := by
  rw [byte_pair_encode] at henc
  split at henc
  · rcases hrk : enc piece with _ | t <;> rw [hrk] at henc
    · exact Option.noConfusion henc
    · have hts : [t] = ts := by simpa using henc
      subst hts
      rw [decodeBytes, lookupToken, hdec _ _ hrk]
      simp [decodeBytes]
  · have := decodeBytes_mapM enc dec specDec piece hdec (byte_pair_merge enc piece) ts henc
    rw [this, byte_pair_merge_flatten]

theorem encodeSegs_decodeBytes (enc specEnc : List ℕ → Option ℕ)
    (dec specDec : ℕ → Option (List ℕ))
    (hdec : ∀ bs t, enc bs = some t → dec t = some bs)
    (hspec : ∀ bs t, specEnc bs = some t → dec t = none ∧ specDec t = some bs) :
    ∀ (segs : List Seg) (ts : List ℕ), encodeSegs enc specEnc segs = some ts →
      decodeBytes dec specDec ts = some (segsBytes segs) := by
  intro segs
  induction segs with
  | nil =>
    intro ts hts
    have : ts = [] := by
      have h2 : some ([] : List ℕ) = some ts := hts
      injection h2 with h
      exact h.symm
    subst this
    rfl
  | cons sg rest ih =>
    intro ts hts
    cases sg with
    | ord bs =>
      rw [encodeSegs] at hts
      rcases hrest : encodeSegs enc specEnc rest with _ | rst
      · rcases he : enc bs with _ | t <;> simp only [he, hrest] at hts
        · rcases hbp : byte_pair_encode enc bs with _ | ts1 <;> rw [hbp] at hts <;>
            exact Option.noConfusion hts
        · exact Option.noConfusion hts
      · rcases he : enc bs with _ | t <;> simp only [he, hrest] at hts
        · rcases hbp : byte_pair_encode enc bs with _ | ts1 <;> rw [hbp] at hts
          · exact Option.noConfusion hts
          · have hts2 : ts1 ++ rst = ts := by simpa using hts
            subst hts2
            have h1 := byte_pair_encode_decodes enc dec specDec bs ts1 hdec hbp
            have h2 := ih rst hrest
            have := decodeBytes_append dec specDec ts1 rst bs (segsBytes rest) h1 h2
            rw [this]
            rfl
        · have hts2 : [t] ++ rst = ts := by simpa using hts
          subst hts2
          have h1 : decodeBytes dec specDec [t] = some bs := by
            rw [decodeBytes, lookupToken, hdec _ _ he]
            simp [decodeBytes]
          have h2 := ih rst hrest
          have := decodeBytes_append dec specDec [t] rst bs (segsBytes rest) h1 h2
          rw [this]
          rfl
    | special bs =>
      rw [encodeSegs] at hts
      rcases he : specEnc bs with _ | t <;> rw [he] at hts
      · exact Option.noConfusion hts
      · rcases hrest : encodeSegs enc specEnc rest with _ | rst <;> rw [hrest] at hts
        · exact Option.noConfusion hts
        · have hts2 : t :: rst = ts := by injection hts
          subst hts2
          obtain ⟨hd, hsd⟩ := hspec bs t he
          show decodeBytes dec specDec (t :: rst) = _
          rw [decodeBytes, lookupToken, hd, hsd, ih rst hrest]
          rfl

/-- C5: for every text all of whose pre-tokenized runs are representable
in the vocabulary tables (every ordinary run either found whole in the
encoder or fully covered by rank-table hits after byte-pair merging, and
every special run present in the special-token table, which is what
`encodeSegs … = some ts` says), decoding the encoding returns the
original text.  The hypotheses on the tables hold for the tables built in
`Arcade100k::new`: the decoder is the encoder inverted (with an asserted
injectivity check), and special ids (100257-100288) are disjoint from the
regular decoder; the text of a Rust `&str` is valid UTF-8, so
`from_utf8_lossy` is the identity on it, which is the `hvalid`
hypothesis. -/
theorem arcade_round_trip (enc specEnc : List ℕ → Option ℕ)
    (dec specDec : ℕ → Option (List ℕ)) (segs : List Seg) (ts : List ℕ)
    (hdec : ∀ bs t, enc bs = some t → dec t = some bs)
    (hspec : ∀ bs t, specEnc bs = some t → dec t = none ∧ specDec t = some bs)
    (henc : encodeSegs enc specEnc segs = some ts)
    (hvalid : utf8Lossy (segsBytes segs) = segsBytes segs) :
    arcadeDecode dec specDec ts = some (segsBytes segs) := by
  rw [arcadeDecode, encodeSegs_decodeBytes enc specEnc dec specDec hdec hspec segs ts henc]
  show some (utf8Lossy (segsBytes segs)) = some (segsBytes segs)
  rw [hvalid]

/-- Witness for C5: the spec §8 scenario — a vocabulary containing
`"hello"` (bytes 104 101 108 108 111) as a single entry: encoding yields
one id and decoding returns `"hello"` — together with a second ordinary
run (`"é"`, encoded through byte-pair merging from single-byte entries)
and a special run. -/
theorem arcade_round_trip_witness :
    arcadeDecode
        (fun t => if t = 7 then some [104, 101, 108, 108, 111] else if t = 1 then some [195]
          else if t = 2 then some [169] else none)
        (fun t => if t = 50 then some [60, 115, 62] else none)
        [7, 1, 2, 50] =
      some (segsBytes [.ord [104, 101, 108, 108, 111], .ord [195, 169], .special [60, 115, 62]]) :=
  arcade_round_trip
    (fun bs => if bs = [104, 101, 108, 108, 111] then some 7 else if bs = [195] then some 1
      else if bs = [169] then some 2 else none)
    (fun bs => if bs = [60, 115, 62] then some 50 else none)
    (fun t => if t = 7 then some [104, 101, 108, 108, 111] else if t = 1 then some [195]
      else if t = 2 then some [169] else none)
    (fun t => if t = 50 then some [60, 115, 62] else none)
    [.ord [104, 101, 108, 108, 111], .ord [195, 169], .special [60, 115, 62]]
    [7, 1, 2, 50]
    (by
      intro bs t he
      by_cases h1 : bs = [104, 101, 108, 108, 111]
      · rw [h1] at he; simp at he; rw [← he, h1]; rfl
      · by_cases h2 : bs = [195]
        · rw [h2] at he; simp [h1] at he; rw [← he, h2]; rfl
        · by_cases h3 : bs = [169]
          · rw [h3] at he; simp [h1, h2] at he; rw [← he, h3]; rfl
          · simp [h1, h2, h3] at he)
    (by
      intro bs t he
      by_cases h1 : bs = [60, 115, 62]
      · rw [h1] at he; simp at he; rw [← he, h1]; exact ⟨rfl, rfl⟩
      · simp [h1] at he)
    (by decide)
    (by decide)

/-! ## Model of the streaming detokenizer

From `src/generator/token_output_stream.rs` (`TokenOutputStream`).  The
tokenizer decode (`Arcade100k::decode`, whose Result is an `anyhow`
error or a `String`) is the parameter `dec`, producing the decoded bytes;
`String::len` is byte length and `split_at` splits at a byte index, so
fragments are byte-list drops.  `text.chars().last().unwrap().is_ascii()`
is modelled as the last byte being `< 0x80`: the decode output is
`from_utf8_lossy` output, hence valid UTF-8, and a valid string's last
character is ASCII exactly when its last byte is below `0x80` (multi-byte
characters end in continuation bytes `≥ 0x80`). -/

structure TokenOutputStream where
  tokens : List ℕ
  prevIndex : ℕ
  currentIndex : ℕ
deriving DecidableEq

/-- Last decoded character is ASCII (last byte below 128). -/
def lastCharAscii (text : List ℕ) : Bool :=
  match text.getLast? with
  | some b => b < 128
  | none => false

/-- Model of `TokenOutputStream::next_token`
(src/generator/token_output_stream.rs lines 47-64): decode the window
`tokens[prev_index..current_index]` ("before", empty when no tokens yet),
push the token, decode `tokens[prev_index..]` ("after"); if "after" is
strictly byte-longer and its last character is ASCII, emit the byte
suffix past "before"'s length and advance both boundary indices,
otherwise buffer the token and emit nothing. -/
def TokenOutputStream.next_token (dec : List ℕ → Except ℕ (List ℕ)) (s : TokenOutputStream)
    (token : ℕ) : TokenOutputStream × Except ℕ (Option (List ℕ)) :=
  match (if s.tokens.isEmpty then Except.ok [] else
      dec (byteSlice s.tokens s.prevIndex s.currentIndex) : Except ℕ (List ℕ)) with
  | .error e => (s, .error e)
  | .ok prevText =>
    let toks := s.tokens ++ [token]
    match dec (toks.drop s.prevIndex) with
    | .error e => ({ s with tokens := toks }, .error e)
    | .ok text =>
      if prevText.length < text.length ∧ lastCharAscii text = true then
        (⟨toks, s.currentIndex, toks.length⟩, .ok (some (text.drop prevText.length)))
      else ({ s with tokens := toks }, .ok none)

/-- Model of `TokenOutputStream::decode_rest`
(src/generator/token_output_stream.rs lines 66-80): the final flush —
same "before"/"after" comparison but without the ASCII test and without
pushing a token; emits the strictly-longer remainder unconditionally. -/
def TokenOutputStream.decode_rest (dec : List ℕ → Except ℕ (List ℕ)) (s : TokenOutputStream) :
    Except ℕ (Option (List ℕ)) :=
  match (if s.tokens.isEmpty then Except.ok [] else
      dec (byteSlice s.tokens s.prevIndex s.currentIndex) : Except ℕ (List ℕ)) with
  | .error e => .error e
  | .ok prevText =>
    match dec (s.tokens.drop s.prevIndex) with
    | .error e => .error e
    | .ok text =>
      if prevText.length < text.length then .ok (some (text.drop prevText.length))
      else .ok none

theorem lastCharAscii_drop (text : List ℕ) :
    ∀ k : ℕ, k < text.length → lastCharAscii (text.drop k) = lastCharAscii text := by
  induction text with
  | nil => intro k h; simp at h
  | cons b rest ih =>
    intro k h
    cases k with
    | zero => rfl
    | succ k2 =>
      have hk2 : k2 < rest.length := by
        simp only [List.length_cons] at h
        omega
      show lastCharAscii (rest.drop k2) = _
      rw [ih k2 hk2]
      cases hr : rest with
      | nil => rw [hr] at hk2; simp at hk2
      | cons c rest2 =>
        rw [lastCharAscii, lastCharAscii, List.getLast?_cons_cons]

/-- C6: `next_token` returns `Some(fragment)` if and only if the text
decoded from `prev_index` through the new end of the token history is
strictly byte-longer than the text decoded from `prev_index` through
`current_index` and the last character of the new text is ASCII; the
fragment is exactly the byte suffix beyond the previous text's length
(ending in that ASCII byte, hence never mid-multi-byte-character), the
boundary indices advance, and otherwise the token is only buffered and
nothing is emitted; `decode_rest` emits any remaining strictly-longer
suffix unconditionally, without the ASCII test. -/
theorem token_output_stream_boundary :
    (∀ (dec : List ℕ → Except ℕ (List ℕ)) (s : TokenOutputStream) (token : ℕ)
      (prevText text : List ℕ),
      (if s.tokens.isEmpty then Except.ok [] else
        dec (byteSlice s.tokens s.prevIndex s.currentIndex)) = .ok prevText →
      dec ((s.tokens ++ [token]).drop s.prevIndex) = .ok text →
      TokenOutputStream.next_token dec s token =
        if prevText.length < text.length ∧ lastCharAscii text = true then
          (⟨s.tokens ++ [token], s.currentIndex, (s.tokens ++ [token]).length⟩,
            .ok (some (text.drop prevText.length)))
        else ({ s with tokens := s.tokens ++ [token] }, .ok none)) ∧
    (∀ (prevText text : List ℕ), prevText.length < text.length → lastCharAscii text = true →
      lastCharAscii (text.drop prevText.length) = true) ∧
    (∀ (dec : List ℕ → Except ℕ (List ℕ)) (s : TokenOutputStream) (prevText text : List ℕ),
      (if s.tokens.isEmpty then Except.ok [] else
        dec (byteSlice s.tokens s.prevIndex s.currentIndex)) = .ok prevText →
      dec (s.tokens.drop s.prevIndex) = .ok text →
      TokenOutputStream.decode_rest dec s =
        .ok (if prevText.length < text.length then some (text.drop prevText.length)
          else none)) := by
  refine ⟨?_, ?_, ?_⟩
  · intro dec s token prevText text hprev htext
    rw [TokenOutputStream.next_token, hprev]
    simp only [htext]
  · intro prevText text hlen hascii
    rw [lastCharAscii_drop text prevText.length hlen]
    exact hascii
  · intro dec s prevText text hprev htext
    rw [TokenOutputStream.decode_rest, hprev]
    simp only [htext]
    split <;> rfl

/-- Witness for C6: the identity byte decoder; an ASCII byte is emitted
immediately, a dangling lead byte (195) is buffered, and the final flush
emits it. -/
theorem token_output_stream_boundary_witness :
    TokenOutputStream.next_token (fun ts => .ok ts) ⟨[], 0, 0⟩ 104 =
        (⟨[104], 0, 1⟩, .ok (some [104])) ∧
      lastCharAscii ([104, 105].drop 1) = true ∧
      TokenOutputStream.decode_rest (fun ts => .ok ts) ⟨[104, 195], 1, 1⟩ =
        .ok (some [195]) := by
  refine ⟨?_, ?_, ?_⟩
  · have h := token_output_stream_boundary.1 (fun ts => .ok ts) ⟨[], 0, 0⟩ 104 [] [104]
      rfl rfl
    rw [h]
    rfl
  · exact token_output_stream_boundary.2.1 [104] [104, 105] (by decide) (by decide)
  · have h := token_output_stream_boundary.2.2 (fun ts => .ok ts) ⟨[104, 195], 1, 1⟩ [] [195]
      rfl rfl
    rw [h]
    rfl
